import Mathlib

/-!
# amp-free-proxy: the request hook of `main.go`

A shallow embedding of the forwarding hook (`proxy.Director`) that `main` installs on the
reverse proxy, together with the two regular expressions it runs on request bodies.

* Bytes are natural numbers (a Go `byte` is one below 256); a `[]byte` or a Go `string`
  is a list of them.  Runes are natural numbers too.
* Both regular expressions of the program have the shape `KEY\s*:\s*VALUE`, with `KEY` and
  `VALUE` literal and `VALUE` starting with a quote or a letter.  A `Regexp` holds the two
  literal texts.  As in Go, a literal is compared rune by rune: `DecodeRune` reads the input
  as `utf8.DecodeRune` does, an invalid byte reading as U+FFFD.  `Regexp.matchAt`,
  `Regexp.doExecute`, `Regexp.Match`, `Regexp.ReplaceAll`, `extract` and `expand` follow the
  functions of the same names in Go's `regexp` package.
* The mapping loop compiles a pattern for every entry it visits; `regexp.MustCompile` panics
  on a source name that is not UTF-8, so the loop, its block and the hook have a result only
  when no visited entry makes it panic.
* What the program takes from Go's library and cannot be written out here is a parameter
  (`Stdlib`): the Unicode tables beyond ASCII and the size limit of the regexp parser.
* `range modelMap` visits the entries of a Go map in an order the language leaves open; the
  hook therefore takes the order of one visit as an argument, a permutation of the map.
* A request body is a reader: the bytes `io.ReadAll` returns and whether it returns an error
  with them.  The log is the list of lines the hook prints.
-/

namespace AmpFreeProxy

/-! ## Bytes and runes -/

/-- One byte of a Go byte slice or string. -/
abbrev Byte := Nat

/-- A Unicode code point, Go's `rune`. -/
abbrev Rune := Nat

/-- The bytes of an ASCII string literal of the program. -/
def ascii (s : String) : List Byte := s.toList.map Char.toNat

/-- Go's `utf8.RuneError`, U+FFFD. -/
def RuneError : Rune := 65533

/-- Go's `utf8.DecodeRune`: the first rune of the input and its width in bytes.  An empty
input gives `(RuneError, 0)`, an encoding that is not valid (a stray or missing continuation
byte, an overlong form, a surrogate, a value above U+10FFFF) gives `(RuneError, 1)`.  The
masks `p0 & 0x1F`, `b & 0x3F` and so on are written as remainders. -/
def DecodeRune : List Byte → Rune × Nat
  | [] => (RuneError, 0)
  | p0 :: tl =>
    if p0 < 128 then (p0, 1)
    else if p0 < 194 then (RuneError, 1)
    else if p0 < 224 then
      match tl with
      | b1 :: _ =>
        if 128 ≤ b1 ∧ b1 ≤ 191 then (p0 % 32 * 64 + b1 % 64, 2) else (RuneError, 1)
      | [] => (RuneError, 1)
    else if p0 < 240 then
      match tl with
      | b1 :: b2 :: _ =>
        if (if p0 = 224 then 160 else 128) ≤ b1 ∧ b1 ≤ (if p0 = 237 then 159 else 191) ∧
            128 ≤ b2 ∧ b2 ≤ 191 then
          (p0 % 16 * 4096 + b1 % 64 * 64 + b2 % 64, 3)
        else (RuneError, 1)
      | _ => (RuneError, 1)
    else if p0 < 245 then
      match tl with
      | b1 :: b2 :: b3 :: _ =>
        if (if p0 = 240 then 144 else 128) ≤ b1 ∧ b1 ≤ (if p0 = 244 then 143 else 191) ∧
            128 ≤ b2 ∧ b2 ≤ 191 ∧ 128 ≤ b3 ∧ b3 ≤ 191 then
          (p0 % 8 * 262144 + b1 % 64 * 4096 + b2 % 64 * 64 + b3 % 64, 4)
        else (RuneError, 1)
      | _ => (RuneError, 1)
    else (RuneError, 1)

/-- Decode a text rune after rune: the runes with their widths.  The first argument bounds
the number of rounds; the length of the text is enough. -/
def decodeLoop : Nat → List Byte → List (Rune × Nat)
  | 0, _ => []
  | _ + 1, [] => []
  | fuel + 1, c :: tl =>
    DecodeRune (c :: tl) :: decodeLoop fuel ((c :: tl).drop (DecodeRune (c :: tl)).2)

/-- The runes of a text, as a regexp compiled from it holds them. -/
def runes (s : List Byte) : List Rune := (decodeLoop s.length s).map Prod.fst

/-- The test of the regexp parser for UTF-8 (`checkUTF8`): no rune of the text is a
`RuneError` of width one. -/
def checkUTF8 (s : List Byte) : Bool :=
  (decodeLoop s.length s).all (fun d => !(d.1 == RuneError && d.2 == 1))

/-! ## Constants of `main.go` -/

def internalAPIPath : String := "/api/internal"
def webSearchQuery : String := "webSearch2"
def extractWebPageContentQuery : String := "extractWebPageContent"
def anthropicMessagesPath : String := "/api/provider/anthropic/v1/messages"

/-! ## Regular expressions of the shape `KEY\s*:\s*VALUE` -/

/-- A pattern `KEY\s*:\s*VALUE`: the literal texts before and after the colon. -/
structure Regexp where
  key : List Byte
  value : List Byte
deriving DecidableEq

/-- The class `\s` of Go's regexp syntax: tab, line feed, form feed, carriage return, space.
These runes are ASCII, so a byte of the input is white space exactly when the rune that
starts at it is. -/
def isSpace (b : Byte) : Bool :=
  b == 9 || b == 10 || b == 12 || b == 13 || b == 32

/-- Consume the runes of a literal at the head of the input, one decoded rune of the input
against one rune of the literal; the result is what follows them. -/
def stripRunes : List Rune → List Byte → Option (List Byte)
  | [], s => some s
  | _ :: _, [] => none
  | r :: rs, c :: cs =>
    if (DecodeRune (c :: cs)).1 = r then stripRunes rs ((c :: cs).drop (DecodeRune (c :: cs)).2)
    else none

/-- Consume the literal `p` at the head of the input; the result is what follows it. -/
def stripLit (p s : List Byte) : Option (List Byte) := stripRunes (runes p) s

/-- Run the pattern anchored at the head of the input.  On success the result is the matched
text and the input after it.  Each `\s*` is greedy; since the rune that has to follow it
(`:`, or the first rune of `VALUE`) is not white space, the greedy run is the only one that
can succeed. -/
def Regexp.matchAt (re : Regexp) (s : List Byte) : Option (List Byte × List Byte) :=
  match stripLit re.key s with
  | none => none
  | some r1 =>
    match r1.dropWhile isSpace with
    | [] => none
    | c :: r2 =>
      if c = 58 then
        match stripLit re.value (r2.dropWhile isSpace) with
        | none => none
        | some r3 => some (s.take (s.length - r3.length), r3)
      else none

/-- The leftmost match in the input: the bytes before it, the matched text, the bytes after. -/
def Regexp.doExecute (re : Regexp) : List Byte → Option (List Byte × List Byte × List Byte)
  | [] =>
    match re.matchAt [] with
    | some (m, rest) => some ([], m, rest)
    | none => none
  | c :: cs =>
    match re.matchAt (c :: cs) with
    | some (m, rest) => some ([], m, rest)
    | none =>
      match re.doExecute cs with
      | some (g, m, rest) => some (c :: g, m, rest)
      | none => none

/-- Go's `(*Regexp).Match`: does the input contain a match. -/
def Regexp.Match (re : Regexp) (b : List Byte) : Bool := (re.doExecute b).isSome

/-- The loop of Go's `replaceAll`: copy the bytes before the next match, append the
replacement of the match, go on behind the match.  A match is never empty (it holds a colon),
so the search position always equals the end of the last match.  The first argument bounds
the number of rounds. -/
def Regexp.replaceAllLoop (re : Regexp) (repl : List Byte → List Byte) :
    Nat → List Byte → List Byte
  | 0, s => s
  | fuel + 1, s =>
    match re.doExecute s with
    | none => s
    | some (g, m, rest) => g ++ repl m ++ re.replaceAllLoop repl fuel rest

/-! ## What is taken from Go's library -/

/-- The parts of Go's library that the program reaches and that are too large to write out:
`unicode.IsLetter` and `unicode.IsDigit` on runes from U+0080 on, and whether the regexp
parser refuses a literal of more than a million runes as too large. -/
structure Stdlib where
  IsLetter : Rune → Bool
  IsDigit : Rune → Bool
  TooLarge : List Rune → Bool

/-- Go's `unicode.IsLetter`: on ASCII the letters `A` to `Z` and `a` to `z`. -/
def IsLetter (lib : Stdlib) (r : Rune) : Bool :=
  if r < 128 then (65 ≤ r && r ≤ 90) || (97 ≤ r && r ≤ 122) else lib.IsLetter r

/-- Go's `unicode.IsDigit`: on ASCII the digits `0` to `9`. -/
def IsDigit (lib : Stdlib) (r : Rune) : Bool :=
  if r < 128 then 48 ≤ r && r ≤ 57 else lib.IsDigit r

/-- Whether the regexp parser refuses a literal as too large (`ErrLarge`); it accepts every
literal of up to a million runes. -/
def tooLarge (lib : Stdlib) (l : List Rune) : Bool :=
  decide (1000000 < l.length) && lib.TooLarge l

/-! ## Template expansion (`$` in the replacement) -/

/-- The loop of Go's `extract` over the runes of a name: the number of bytes up to the first
rune that is neither a letter nor a digit nor the underscore.  The first argument bounds the
number of rounds. -/
def nameLen (lib : Stdlib) : Nat → List Byte → Nat
  | 0, _ => 0
  | _ + 1, [] => 0
  | fuel + 1, c :: tl =>
    if IsLetter lib (DecodeRune (c :: tl)).1 || IsDigit lib (DecodeRune (c :: tl)).1 ||
        (DecodeRune (c :: tl)).1 == 95 then
      (DecodeRune (c :: tl)).2 + nameLen lib fuel ((c :: tl).drop (DecodeRune (c :: tl)).2)
    else 0

/-- The number loop of Go's `extract`: the value of a decimal name, `-1` for any other. -/
def parseNum : List Byte → Int → Int
  | [], num => num
  | c :: cs, num =>
    if c < 48 || 57 < c || num ≥ 100000000 then -1
    else parseNum cs (num * 10 + (c : Int) - 48)

/-- Go's `extract`: the name at the head of a template, after the `$`: a `name` or a
`{name}`.  The result is the name, its number (`-1` if it is not one) and the rest. -/
def extract (lib : Stdlib) (str : List Byte) : Option (List Byte × Int × List Byte) :=
  match str with
  | [] => none
  | c0 :: tl =>
    let brace : Bool := c0 == 123
    let str1 := if brace then tl else str
    let i := nameLen lib str1.length str1
    let name := str1.take i
    let after := str1.drop i
    if i = 0 then none
    else
      let num0 := parseNum name 0
      let num := if name.head? == some 48 && 1 < name.length then -1 else num0
      if brace then
        match after with
        | 125 :: rest => some (name, num, rest)
        | _ => none
      else some (name, num, after)

/-- Go's `(*Regexp).expand` for a pattern without capture groups: the match has the single
group `0`, the whole matched text `m`, and no group has a name.  The first argument bounds
the number of rounds. -/
def expandLoop (lib : Stdlib) (m : List Byte) : Nat → List Byte → List Byte
  | 0, template => template
  | fuel + 1, template =>
    let before := template.takeWhile (fun b => b != 36)
    match template.dropWhile (fun b => b != 36) with
    | [] => before
    | _ :: after =>
      match after with
      | 36 :: after1 => before ++ 36 :: expandLoop lib m fuel after1
      | _ =>
        match extract lib after with
        | none => before ++ 36 :: expandLoop lib m fuel after
        | some (_, num, rest) =>
          before ++ (if num = 0 then m else []) ++ expandLoop lib m fuel rest

/-- The replacement text for a match `m` under the template. -/
def expand (lib : Stdlib) (template m : List Byte) : List Byte :=
  expandLoop lib m (template.length + 1) template

/-- Go's `(*Regexp).ReplaceAll`. -/
def Regexp.ReplaceAll (lib : Stdlib) (re : Regexp) (src repl : List Byte) : List Byte :=
  re.replaceAllLoop (expand lib repl) (src.length + 1) src

/-- The pattern of `isFreeTierRequestRegex` (line 29):  `"isFreeTierRequest"\s*:\s*false`. -/
def isFreeTierRequestRegex : Regexp :=
  { key := ascii "\"isFreeTierRequest\"", value := ascii "false" }

/-- The pattern the mapping loop writes for a source model name (line 142):
`"model"\s*:\s*"`, the name made literal by `regexp.QuoteMeta`, and `"`. -/
def modelPattern (fromModel : List Byte) : Regexp :=
  { key := ascii "\"model\"", value := 34 :: fromModel ++ [34] }

/-- Whether `regexp.MustCompile` returns on the pattern for a source model name (line 142)
rather than panics: the name is UTF-8 and not too large for the parser. -/
def compiles (lib : Stdlib) (fromModel : List Byte) : Bool :=
  checkUTF8 fromModel && !(tooLarge lib (runes fromModel))

/-! ## Configuration -/

/-- A model redirection rule (`ModelMapping` of the program). -/
structure ModelMapping where
  From : List Byte
  To : List Byte
deriving DecidableEq

/-- A Go `map[string]string`: its entries, no two with the same key. -/
abbrev ModelMap := List (List Byte × List Byte)

/-- The assignment `m[k] = v` on a map: the entry of `k` is overwritten if there is one,
and added otherwise. -/
def mapAssign : ModelMap → List Byte → List Byte → ModelMap
  | [], k, v => [(k, v)]
  | (k1, v1) :: tl, k, v => if k1 = k then (k, v) :: tl else (k1, v1) :: mapAssign tl k v

/-- The loop of `main` that fills `modelMap` from the configured rules, in their order
(lines 90 to 94). -/
def buildModelMap (modelMappings : List ModelMapping) : ModelMap :=
  modelMappings.foldl (fun acc m => mapAssign acc m.From m.To) []

/-- What the hook captures from `main`: the two switches, the configured rules and the host
of the upstream URL. -/
structure Settings where
  enableFreeSearch : Bool
  enableModelMapping : Bool
  modelMappings : List ModelMapping
  upstreamHost : String
deriving DecidableEq

/-! ## Requests -/

/-- A request body as a reader: the bytes `io.ReadAll` gets out of it and whether the read
ends in an error. -/
structure Body where
  data : List Byte
  readErr : Bool
deriving DecidableEq

/-- An `http.Header`: keys in canonical form with their values. -/
abbrev Header := List (String × List String)

/-- Go's `Header.Set` for a key in canonical form: the key gets the single value. -/
def Header.Set (h : Header) (key value : String) : Header :=
  (key, [value]) :: h.filter (fun e => e.1 != key)

/-- The values recorded under a key, if any. -/
def Header.values (h : Header) (key : String) : Option (List String) :=
  h.lookup key

/-- The fields of an outbound `http.Request` the hook reads or writes, as they are once the
stock director of the reverse proxy has run. -/
structure Request where
  host : String
  path : String
  rawQuery : String
  body : Option Body
  contentLength : Int
  header : Header
deriving DecidableEq

/-- The lines the hook writes to the log. -/
inductive LogLine where
  /-- The line `Warning: could not read request body for <query>`. -/
  | readWarning (query : String)
  /-- The line `Modified <query> request to use free tier`. -/
  | modifiedFreeTier (query : String)
  /-- The line `Warning: could not read request body for anthropic messages`. -/
  | readWarningMessages
  /-- The line `Mapped model: <from> -> <to>`. -/
  | mappedModel (fromModel toModel : List Byte)
deriving DecidableEq

/-! ## The hook -/

/-- The replacement text of the free-tier branch (line 120). -/
def freeTierReplacement : List Byte := ascii "\"isFreeTierRequest\":true"

/-- The replacement text of the mapping branch for a target model name (line 144). -/
def modelReplacement (toModel : List Byte) : List Byte :=
  ascii "\"model\":\"" ++ toModel ++ ascii "\""

/-- The condition that guards the free-tier branch, up to the test for a body (line 114). -/
def freeSearchApplies (st : Settings) (req : Request) : Bool :=
  st.enableFreeSearch && req.path == internalAPIPath &&
    (req.rawQuery == webSearchQuery || req.rawQuery == extractWebPageContentQuery)

/-- The first block of the hook: the free-tier rewrite (lines 114 to 128). -/
def freeSearchStep (lib : Stdlib) (st : Settings) (req : Request) : Request × List LogLine :=
  if freeSearchApplies st req then
    match req.body with
    | none => (req, [])
    | some body =>
      let bodyBytes := body.data
      if body.readErr then
        ({ req with body := some ⟨bodyBytes, false⟩ }, [LogLine.readWarning req.rawQuery])
      else if isFreeTierRequestRegex.Match bodyBytes then
        let modifiedBody := isFreeTierRequestRegex.ReplaceAll lib bodyBytes freeTierReplacement
        ({ req with
            contentLength := (modifiedBody.length : Int)
            header := req.header.Set "Content-Length" (toString modifiedBody.length)
            body := some ⟨modifiedBody, false⟩ },
          [LogLine.modifiedFreeTier req.rawQuery])
      else
        ({ req with body := some ⟨bodyBytes, false⟩ }, [])
  else (req, [])

/-- How the loop over `modelMap` ends: `regexp.MustCompile` panics, or no entry matched, or
an entry was applied and gave a new body. -/
inductive LoopResult where
  | panicked
  | unmatched
  | applied (modifiedBody fromModel toModel : List Byte)
deriving DecidableEq

/-- The loop over `modelMap` (lines 141 to 149), visiting the entries in the given order: for
each entry the pattern is compiled, and the first entry whose pattern matches the body
rewrites it and ends the loop. -/
def mappingLoop (lib : Stdlib) (bodyBytes : List Byte) : ModelMap → LoopResult
  | [] => LoopResult.unmatched
  | (fromModel, toModel) :: tl =>
    if compiles lib fromModel then
      let pattern := modelPattern fromModel
      if pattern.Match bodyBytes then
        LoopResult.applied (pattern.ReplaceAll lib bodyBytes (modelReplacement toModel))
          fromModel toModel
      else mappingLoop lib bodyBytes tl
    else LoopResult.panicked

/-- The second block of the hook: the model mapping (lines 131 to 161).  `order` is the
order in which `range modelMap` visits the entries during this call.  There is no result
when `regexp.MustCompile` panics. -/
def modelMappingStep (lib : Stdlib) (st : Settings) (order : ModelMap) (req : Request) :
    Option (Request × List LogLine) :=
  if st.enableModelMapping && req.path == anthropicMessagesPath &&
      decide (0 < (buildModelMap st.modelMappings).length) then
    match req.body with
    | none => some (req, [])
    | some body =>
      let bodyBytes := body.data
      if body.readErr then
        some ({ req with body := some ⟨bodyBytes, false⟩ }, [LogLine.readWarningMessages])
      else
        match mappingLoop lib bodyBytes order with
        | LoopResult.panicked => none
        | LoopResult.applied modifiedBody fromModel toModel =>
          some ({ req with
              contentLength := (modifiedBody.length : Int)
              header := (req.header.Set "Content-Length" (toString modifiedBody.length)).Set
                "X-Amp-Mode" "free"
              body := some ⟨modifiedBody, false⟩ },
            [LogLine.mappedModel fromModel toModel])
        | LoopResult.unmatched => some ({ req with body := some ⟨bodyBytes, false⟩ }, [])
  else some (req, [])

/-- The hook `proxy.Director` (lines 106 to 162) after the stock director: set the host, then
the free-tier block, then the model-mapping block.  The result is the request as it leaves
the hook and the log lines written; there is none when the hook panics. -/
def Director (lib : Stdlib) (st : Settings) (order : ModelMap) (req : Request) :
    Option (Request × List LogLine) :=
  match modelMappingStep lib st order
      (freeSearchStep lib st { req with host := st.upstreamHost }).1 with
  | none => none
  | some r2 =>
    some (r2.1, (freeSearchStep lib st { req with host := st.upstreamHost }).2 ++ r2.2)

/-- The bytes the free-tier branch attaches for a body it could read (lines 119 to 127): the
result of `ReplaceAll` when the pattern matches, the body itself otherwise. -/
def freeTierRewrite (lib : Stdlib) (bodyBytes : List Byte) : List Byte :=
  if isFreeTierRequestRegex.Match bodyBytes then
    isFreeTierRequestRegex.ReplaceAll lib bodyBytes freeTierReplacement
  else bodyBytes

/-! ## The rewrite as the specification words it

These definitions do not come from the code: they say what a match of `KEY\s*:\s*VALUE` is,
byte for byte, and what it means to replace every leftmost non-overlapping match, so that
the code can be compared with them. -/

/-- The text `m` is matched by the pattern: the key, white space, a colon, white space, the
value. -/
def Regexp.IsMatch (re : Regexp) (m : List Byte) : Prop :=
  ∃ ws1 ws2 : List Byte, (∀ b ∈ ws1, isSpace b = true) ∧ (∀ b ∈ ws2, isSpace b = true) ∧
    m = re.key ++ ws1 ++ 58 :: ws2 ++ re.value

/-- A match of the pattern starts at the head of `s`. -/
def Regexp.StartsMatch (re : Regexp) (s : List Byte) : Prop :=
  ∃ m rest : List Byte, re.IsMatch m ∧ s = m ++ rest

/-- No match of the pattern starts anywhere in `s`. -/
def Regexp.Free (re : Regexp) (s : List Byte) : Prop :=
  ∀ t : List Byte, t <:+ s → ¬ re.StartsMatch t

/-- No match of the pattern starts inside the stretch `g` of the text `g ++ w`. -/
def Regexp.FreeBefore (re : Regexp) (g w : List Byte) : Prop :=
  ∀ g1 g2 : List Byte, g = g1 ++ g2 → g2 ≠ [] → ¬ re.StartsMatch (g2 ++ w)

/-- The text `out` is `s` with every leftmost non-overlapping match `m` replaced by `repl m`
and every byte outside the matches kept in order. -/
inductive Regexp.Replaced (re : Regexp) (repl : List Byte → List Byte) :
    List Byte → List Byte → Prop where
  | done (s : List Byte) : re.Free s → Regexp.Replaced re repl s s
  | step (g m rest out : List Byte) : re.IsMatch m → re.FreeBefore g (m ++ rest) →
      Regexp.Replaced re repl rest out →
      Regexp.Replaced re repl (g ++ m ++ rest) (g ++ repl m ++ out)

/-- A text is plain when it is UTF-8 and holds no U+FFFD: none of its runes is a
`RuneError`.  Only on such a literal is Go's comparison rune by rune the comparison byte by
byte. -/
def plain (s : List Byte) : Prop := RuneError ∉ runes s

/-! ## Lemmas on UTF-8 -/

/-- The shapes of a decoding that is not a `RuneError`: one to four bytes in the ranges of
UTF-8, with the rune they spell. -/
theorem DecodeRune_shape (p : List Nat) (h : (DecodeRune p).1 ≠ RuneError) :
    (∃ (p0 : Nat) (t : List Nat), p = p0 :: t ∧ p0 < 128 ∧ DecodeRune p = (p0, 1)) ∨
    (∃ (p0 b1 : Nat) (t : List Nat), p = p0 :: b1 :: t ∧ 194 ≤ p0 ∧ p0 < 224 ∧ 128 ≤ b1 ∧ b1 ≤ 191 ∧
      DecodeRune p = (p0 % 32 * 64 + b1 % 64, 2)) ∨
    (∃ (p0 b1 b2 : Nat) (t : List Nat), p = p0 :: b1 :: b2 :: t ∧ 224 ≤ p0 ∧ p0 < 240 ∧
      (if p0 = 224 then 160 else 128) ≤ b1 ∧ b1 ≤ (if p0 = 237 then 159 else 191) ∧
      128 ≤ b2 ∧ b2 ≤ 191 ∧ 128 ≤ b1 ∧ b1 ≤ 191 ∧
      2048 ≤ p0 % 16 * 4096 + b1 % 64 * 64 + b2 % 64 ∧
      DecodeRune p = (p0 % 16 * 4096 + b1 % 64 * 64 + b2 % 64, 3)) ∨
    (∃ (p0 b1 b2 b3 : Nat) (t : List Nat), p = p0 :: b1 :: b2 :: b3 :: t ∧ 240 ≤ p0 ∧ p0 < 245 ∧
      (if p0 = 240 then 144 else 128) ≤ b1 ∧ b1 ≤ (if p0 = 244 then 143 else 191) ∧
      128 ≤ b2 ∧ b2 ≤ 191 ∧ 128 ≤ b3 ∧ b3 ≤ 191 ∧ 128 ≤ b1 ∧ b1 ≤ 191 ∧
      65536 ≤ p0 % 8 * 262144 + b1 % 64 * 4096 + b2 % 64 * 64 + b3 % 64 ∧
      DecodeRune p = (p0 % 8 * 262144 + b1 % 64 * 4096 + b2 % 64 * 64 + b3 % 64, 4)) := by
  cases p with
  | nil => exact absurd rfl h
  | cons p0 tl =>
    by_cases h1 : p0 < 128
    · left
      exact ⟨p0, tl, rfl, h1, by simp [DecodeRune, h1]⟩
    · by_cases h2 : p0 < 194
      · exact absurd (by simp [DecodeRune, h1, h2]) h
      · by_cases h3 : p0 < 224
        · right; left
          cases tl with
          | nil => exact absurd (by simp [DecodeRune, h1, h2, h3]) h
          | cons b1 t =>
            by_cases hb : 128 ≤ b1 ∧ b1 ≤ 191
            · exact ⟨p0, b1, t, rfl, Nat.le_of_not_lt h2, h3, hb.1, hb.2,
                by simp [DecodeRune, h1, h2, h3, hb]⟩
            · exact absurd (by simp [DecodeRune, h1, h2, h3, hb]) h
        · by_cases h4 : p0 < 240
          · right; right; left
            cases tl with
            | nil => exact absurd (by simp [DecodeRune, h1, h2, h3, h4]) h
            | cons b1 t1 =>
              cases t1 with
              | nil => exact absurd (by simp [DecodeRune, h1, h2, h3, h4]) h
              | cons b2 t =>
                by_cases hb : (if p0 = 224 then 160 else 128) ≤ b1 ∧
                    b1 ≤ (if p0 = 237 then 159 else 191) ∧ 128 ≤ b2 ∧ b2 ≤ 191
                · have hp : 224 ≤ p0 := Nat.le_of_not_lt h3
                  have q1 := hb.1
                  have q2 := hb.2.1
                  have q3 := hb.2.2.1
                  have q4 := hb.2.2.2
                  have k1 : 128 ≤ b1 ∧ b1 ≤ 191 ∧
                      2048 ≤ p0 % 16 * 4096 + b1 % 64 * 64 + b2 % 64 := by
                    clear h hb
                    split_ifs at q1 q2 <;> omega
                  exact ⟨p0, b1, b2, t, rfl, hp, h4, hb.1, hb.2.1, hb.2.2.1, hb.2.2.2,
                    k1.1, k1.2.1, k1.2.2,
                    by simp only [DecodeRune, h1, h2, h3, h4, hb, if_false, if_true, and_self]⟩
                · exact absurd (by simp only [DecodeRune, h1, h2, h3, h4, hb, if_false,
                    if_true]) h
          · by_cases h5 : p0 < 245
            · right; right; right
              cases tl with
              | nil => exact absurd (by simp [DecodeRune, h1, h2, h3, h4, h5]) h
              | cons b1 t1 =>
                cases t1 with
                | nil => exact absurd (by simp [DecodeRune, h1, h2, h3, h4, h5]) h
                | cons b2 t2 =>
                  cases t2 with
                  | nil => exact absurd (by simp [DecodeRune, h1, h2, h3, h4, h5]) h
                  | cons b3 t =>
                    by_cases hb : (if p0 = 240 then 144 else 128) ≤ b1 ∧
                        b1 ≤ (if p0 = 244 then 143 else 191) ∧ 128 ≤ b2 ∧ b2 ≤ 191 ∧
                        128 ≤ b3 ∧ b3 ≤ 191
                    · have hp : 240 ≤ p0 := Nat.le_of_not_lt h4
                      have q1 := hb.1
                      have q2 := hb.2.1
                      have q3 := hb.2.2.1
                      have q4 := hb.2.2.2.1
                      have q5 := hb.2.2.2.2.1
                      have q6 := hb.2.2.2.2.2
                      have k1 : 128 ≤ b1 ∧ b1 ≤ 191 ∧
                          65536 ≤ p0 % 8 * 262144 + b1 % 64 * 4096 + b2 % 64 * 64 + b3 % 64 := by
                        clear h hb
                        split_ifs at q1 q2 <;> omega
                      exact ⟨p0, b1, b2, b3, t, rfl, hp, h5, hb.1, hb.2.1, hb.2.2.1,
                        hb.2.2.2.1, hb.2.2.2.2.1, hb.2.2.2.2.2, k1.1, k1.2.1, k1.2.2,
                        by simp only [DecodeRune, h1, h2, h3, h4, h5, hb, if_false, if_true,
                          and_self]⟩
                    · exact absurd (by simp only [DecodeRune, h1, h2, h3, h4, h5, hb, if_false,
                        if_true]) h
            · exact absurd (by simp [DecodeRune, h1, h2, h3, h4, h5]) h

/-- A decoding that is not a `RuneError` has a width from one to four, within the input. -/
theorem DecodeRune_width (p : List Nat) (h : (DecodeRune p).1 ≠ RuneError) :
    1 ≤ (DecodeRune p).2 ∧ (DecodeRune p).2 ≤ p.length := by
  rcases DecodeRune_shape p h with ⟨p0, t, rfl, _, e⟩ | ⟨p0, b1, t, rfl, _, _, _, _, e⟩ |
    ⟨p0, b1, b2, t, rfl, _, _, _, _, _, _, _, _, _, e⟩ |
    ⟨p0, b1, b2, b3, t, rfl, _, _, _, _, _, _, _, _, _, _, _, e⟩ <;>
  · rw [e]
    simp only [List.length_cons]
    omega

/-- A decoding that is not a `RuneError` depends only on the bytes it spans. -/
theorem DecodeRune_append (p t : List Nat) (h : (DecodeRune p).1 ≠ RuneError) :
    DecodeRune (p.take (DecodeRune p).2 ++ t) = DecodeRune p := by
  rcases DecodeRune_shape p h with ⟨p0, t1, rfl, h1, e⟩ | ⟨p0, b1, t1, rfl, h1, h2, h3, h4, e⟩ |
    ⟨p0, b1, b2, t1, rfl, h1, h2, h3, h4, h5, h6, _, _, _, e⟩ |
    ⟨p0, b1, b2, b3, t1, rfl, h1, h2, h3, h4, h5, h6, h7, h8, _, _, _, e⟩
  · rw [e]; simp [DecodeRune, h1]
  · rw [e]
    have a1 : ¬ p0 < 128 := by omega
    have a2 : ¬ p0 < 194 := by omega
    simp [DecodeRune, a1, a2, h2, h3, h4]
  · rw [e]
    have a1 : ¬ p0 < 128 := by omega
    have a2 : ¬ p0 < 194 := by omega
    have a3 : ¬ p0 < 224 := by omega
    simp only [List.take, List.cons_append, List.nil_append, DecodeRune, a1, a2, a3, h2, h3,
      h4, h5, h6, if_false, if_true, and_self]
  · rw [e]
    have a1 : ¬ p0 < 128 := by omega
    have a2 : ¬ p0 < 194 := by omega
    have a3 : ¬ p0 < 224 := by omega
    have a4 : ¬ p0 < 240 := by omega
    simp only [List.take, List.cons_append, List.nil_append, DecodeRune, a1, a2, a3, a4, h2,
      h3, h4, h5, h6, h7, h8, if_false, if_true, and_self]

/-- A rune other than `RuneError` is spelled by one byte sequence only: two inputs that
decode to it start with the same bytes. -/
theorem DecodeRune_inj (p s : List Nat) (h : (DecodeRune p).1 ≠ RuneError)
    (e : (DecodeRune s).1 = (DecodeRune p).1) :
    (DecodeRune s).2 = (DecodeRune p).2 ∧
      s.take (DecodeRune p).2 = p.take (DecodeRune p).2 := by
  have hs : (DecodeRune s).1 ≠ RuneError := by rw [e]; exact h
  rcases DecodeRune_shape p h with ⟨p0, t1, rfl, h1, e1⟩ |
    ⟨p0, b1, t1, rfl, h1, h2, h3, h4, e1⟩ |
    ⟨p0, b1, b2, t1, rfl, h1, h2, -, -, h5, h6, h7, h8, h9, e1⟩ |
    ⟨p0, b1, b2, b3, t1, rfl, h1, h2, -, -, h5, h6, h7, h8, h9, h10, h11, e1⟩ <;>
  rcases DecodeRune_shape s hs with ⟨q0, u1, rfl, g1, e2⟩ |
    ⟨q0, c1, u1, rfl, g1, g2, g3, g4, e2⟩ |
    ⟨q0, c1, c2, u1, rfl, g1, g2, -, -, g5, g6, g7, g8, g9, e2⟩ |
    ⟨q0, c1, c2, c3, u1, rfl, g1, g2, -, -, g5, g6, g7, g8, g9, g10, g11, e2⟩ <;>
  · have v1 := congrArg Prod.fst e1
    have v2 := congrArg Prod.fst e2
    dsimp only at v1 v2
    rw [v1, v2] at e
    change @Eq Nat _ _ at e
    rw [e1, e2]
    simp only [List.take, List.cons.injEq, and_true, true_and]
    clear h hs e1 e2 v1 v2
    omega

/-- Every decoding of an input that is not empty has a width from one up. -/
theorem DecodeRune_width_pos (c : Nat) (tl : List Nat) : 1 ≤ (DecodeRune (c :: tl)).2 := by
  by_cases h1 : c < 128
  · simp [DecodeRune, h1]
  · by_cases h2 : c < 194
    · simp [DecodeRune, h1, h2]
    · by_cases h3 : c < 224
      · cases tl with
        | nil => simp [DecodeRune, h1, h2, h3]
        | cons b1 t =>
          by_cases hb : 128 ≤ b1 ∧ b1 ≤ 191
          · simp [DecodeRune, h1, h2, h3, hb]
          · simp [DecodeRune, h1, h2, h3, hb]
      · by_cases h4 : c < 240
        · cases tl with
          | nil => simp [DecodeRune, h1, h2, h3, h4]
          | cons b1 t1 =>
            cases t1 with
            | nil => simp [DecodeRune, h1, h2, h3, h4]
            | cons b2 t =>
              by_cases hb : (if c = 224 then 160 else 128) ≤ b1 ∧
                  b1 ≤ (if c = 237 then 159 else 191) ∧ 128 ≤ b2 ∧ b2 ≤ 191
              · simp only [DecodeRune, h1, h2, h3, h4, hb, if_false, if_true, and_self]
                decide
              · simp only [DecodeRune, h1, h2, h3, h4, hb, if_false, if_true]
                decide
        · by_cases h5 : c < 245
          · cases tl with
            | nil => simp [DecodeRune, h1, h2, h3, h4, h5]
            | cons b1 t1 =>
              cases t1 with
              | nil => simp [DecodeRune, h1, h2, h3, h4, h5]
              | cons b2 t2 =>
                cases t2 with
                | nil => simp [DecodeRune, h1, h2, h3, h4, h5]
                | cons b3 t =>
                  by_cases hb : (if c = 240 then 144 else 128) ≤ b1 ∧
                      b1 ≤ (if c = 244 then 143 else 191) ∧ 128 ≤ b2 ∧ b2 ≤ 191 ∧
                      128 ≤ b3 ∧ b3 ≤ 191
                  · simp only [DecodeRune, h1, h2, h3, h4, h5, hb, if_false, if_true, and_self]
                    decide
                  · simp only [DecodeRune, h1, h2, h3, h4, h5, hb, if_false, if_true]
                    decide
          · simp [DecodeRune, h1, h2, h3, h4, h5]

/-- The bound on the rounds of the decoding is never reached. -/
theorem decodeLoop_fuel (f1 f2 : Nat) (s : List Nat) (h1 : s.length ≤ f1) (h2 : s.length ≤ f2) :
    decodeLoop f1 s = decodeLoop f2 s := by
  induction f1 generalizing f2 s with
  | zero =>
    have : s = [] := List.eq_nil_of_length_eq_zero (Nat.le_zero.1 h1)
    subst this
    cases f2 <;> rfl
  | succ f1 ih =>
    cases s with
    | nil => cases f2 <;> rfl
    | cons c tl =>
      cases f2 with
      | zero => simp at h2
      | succ f2 =>
        have hw := DecodeRune_width_pos c tl
        have hl : ((c :: tl).drop (DecodeRune (c :: tl)).2).length ≤ tl.length := by
          simp only [List.length_drop, List.length_cons]
          omega
        simp only [List.length_cons] at h1 h2
        simp only [decodeLoop]
        rw [ih f2 _ (by omega) (by omega)]

theorem runes_nil : runes [] = [] := rfl

theorem runes_cons (c : Nat) (tl : List Nat) :
    runes (c :: tl) =
      (DecodeRune (c :: tl)).1 :: runes ((c :: tl).drop (DecodeRune (c :: tl)).2) := by
  have hw := DecodeRune_width_pos c tl
  have hl : ((c :: tl).drop (DecodeRune (c :: tl)).2).length ≤ tl.length := by
    simp only [List.length_drop, List.length_cons]
    omega
  unfold runes
  simp only [List.length_cons, decodeLoop, List.map_cons]
  rw [decodeLoop_fuel tl.length _ _ hl (Nat.le_refl _)]

/-- A literal that is plain is matched rune by rune exactly where it stands byte by byte. -/
theorem stripLit_plain (p : List Nat) (hp : plain p) (s t : List Nat) :
    stripLit p s = some t ↔ s = p ++ t := by
  unfold stripLit
  generalize hn : p.length = n
  induction n using Nat.strong_induction_on generalizing p s with
  | _ n ih =>
    cases p with
    | nil =>
      rw [runes_nil]
      simp [stripRunes, eq_comm]
    | cons c tl =>
      unfold plain at hp
      rw [runes_cons] at hp ⊢
      simp only [List.mem_cons, not_or] at hp
      have hne : (DecodeRune (c :: tl)).1 ≠ RuneError := fun e => hp.1 e.symm
      obtain ⟨w1, w2⟩ := DecodeRune_width (c :: tl) hne
      have hlen : ((c :: tl).drop (DecodeRune (c :: tl)).2).length < n := by
        rw [← hn]
        simp only [List.length_drop, List.length_cons]
        omega
      have ih2 := ih _ hlen ((c :: tl).drop (DecodeRune (c :: tl)).2) hp.2
      cases s with
      | nil => simp [stripRunes]
      | cons d ds =>
        simp only [stripRunes]
        constructor
        · intro h
          by_cases he : (DecodeRune (d :: ds)).1 = (DecodeRune (c :: tl)).1
          · rw [if_pos he] at h
            obtain ⟨k1, k2⟩ := DecodeRune_inj (c :: tl) (d :: ds) hne he
            rw [k1] at h
            have h3 := (ih2 _ rfl).1 h
            calc d :: ds
                = (d :: ds).take (DecodeRune (c :: tl)).2 ++
                    (d :: ds).drop (DecodeRune (c :: tl)).2 := (List.take_append_drop _ _).symm
              _ = (c :: tl).take (DecodeRune (c :: tl)).2 ++
                    ((c :: tl).drop (DecodeRune (c :: tl)).2 ++ t) := by rw [k2, h3]
              _ = (c :: tl) ++ t := by rw [← List.append_assoc, List.take_append_drop]
          · rw [if_neg he] at h
            exact Option.noConfusion h
        · intro h
          have e1 : d :: ds = (c :: tl).take (DecodeRune (c :: tl)).2 ++
              ((c :: tl).drop (DecodeRune (c :: tl)).2 ++ t) := by
            rw [h, ← List.append_assoc, List.take_append_drop]
          have e2 : DecodeRune (d :: ds) = DecodeRune (c :: tl) := by
            rw [e1]; exact DecodeRune_append _ _ hne
          have e3 : (d :: ds).drop (DecodeRune (c :: tl)).2 =
              (c :: tl).drop (DecodeRune (c :: tl)).2 ++ t := by
            rw [h, List.drop_append_of_le_length w2]
          rw [e2, if_pos rfl, e3]
          exact (ih2 _ rfl).2 rfl

/-- The runes of a plain text followed by another text are the runes of the two. -/
theorem runes_append (a b : List Nat) (ha : plain a) : runes (a ++ b) = runes a ++ runes b := by
  generalize hn : a.length = n
  induction n using Nat.strong_induction_on generalizing a with
  | _ n ih =>
    cases a with
    | nil => simp [runes_nil]
    | cons c tl =>
      unfold plain at ha
      rw [runes_cons] at ha
      simp only [List.mem_cons, not_or] at ha
      have hne : (DecodeRune (c :: tl)).1 ≠ RuneError := fun e => ha.1 e.symm
      obtain ⟨w1, w2⟩ := DecodeRune_width (c :: tl) hne
      have hlen : ((c :: tl).drop (DecodeRune (c :: tl)).2).length < n := by
        rw [← hn]
        simp only [List.length_drop, List.length_cons]
        omega
      have e1 : (c :: tl) ++ b = (c :: tl).take (DecodeRune (c :: tl)).2 ++
          ((c :: tl).drop (DecodeRune (c :: tl)).2 ++ b) := by
        rw [← List.append_assoc, List.take_append_drop]
      have e2 : DecodeRune ((c :: tl) ++ b) = DecodeRune (c :: tl) := by
        rw [e1]; exact DecodeRune_append _ _ hne
      have e3 : ((c :: tl) ++ b).drop (DecodeRune (c :: tl)).2 =
          (c :: tl).drop (DecodeRune (c :: tl)).2 ++ b := List.drop_append_of_le_length w2
      have e4 : runes ((c :: tl) ++ b) = (DecodeRune ((c :: tl) ++ b)).1 ::
          runes (((c :: tl) ++ b).drop (DecodeRune ((c :: tl) ++ b)).2) := runes_cons c (tl ++ b)
      rw [e4, e2, e3, ih _ hlen _ ha.2 rfl, runes_cons c tl]
      rfl

theorem plain_append (a b : List Nat) (ha : plain a) (hb : plain b) : plain (a ++ b) := by
  unfold plain
  rw [runes_append a b ha]
  simp only [List.mem_append, not_or]
  exact ⟨ha, hb⟩

/-- The pattern text around a plain source model name is plain. -/
theorem plain_modelValue (f : List Nat) (hf : plain f) : plain (modelPattern f).value := by
  have h1 : plain [34] := by unfold plain; decide
  have h2 := plain_append [34] (f ++ [34]) h1 (plain_append f [34] hf h1)
  exact h2

theorem plain_modelKey (f : List Nat) : plain (modelPattern f).key := by
  have h : plain (ascii "\"model\"") := by unfold plain; decide
  exact h

/-- A plain text passes the UTF-8 test of the regexp parser. -/
theorem checkUTF8_of_plain (s : List Nat) (hs : plain s) : checkUTF8 s = true := by
  unfold plain runes at hs
  unfold checkUTF8
  rw [List.all_eq_true]
  intro d hd
  have : d.1 ≠ RuneError := by
    intro e
    apply hs
    rw [← e]
    exact List.mem_map_of_mem _ hd
  simp [this]

/-! ## Lemmas on the matcher, for every pattern -/

theorem stripRunes_suffix (rs : List Nat) (s t : List Nat) (h : stripRunes rs s = some t) :
    t <:+ s := by
  induction rs generalizing s with
  | nil =>
    simp only [stripRunes, Option.some.injEq] at h
    rw [h]
  | cons r rs ih =>
    cases s with
    | nil => simp [stripRunes] at h
    | cons c cs =>
      simp only [stripRunes] at h
      by_cases hr : (DecodeRune (c :: cs)).1 = r
      · rw [if_pos hr] at h
        exact (ih _ h).trans (List.drop_suffix _ _)
      · rw [if_neg hr] at h
        exact Option.noConfusion h

theorem dropWhile_isSpace_suffix (s : List Nat) : s.dropWhile isSpace <:+ s :=
  List.dropWhile_suffix isSpace

/-- What the anchored run returns splits the input: the matched text, which is not empty,
and the rest. -/
theorem matchAt_split (re : Regexp) (s m rest : List Nat)
    (h : re.matchAt s = some (m, rest)) : s = m ++ rest ∧ m ≠ [] := by
  unfold Regexp.matchAt at h
  cases h1 : stripLit re.key s with
  | none => simp [h1] at h
  | some r1 =>
    rw [h1] at h
    simp only at h
    cases h2 : r1.dropWhile isSpace with
    | nil => simp [h2] at h
    | cons c r2 =>
      rw [h2] at h
      simp only at h
      by_cases hc : c = 58
      · simp only [hc, if_true] at h
        cases h3 : stripLit re.value (r2.dropWhile isSpace) with
        | none => simp [h3] at h
        | some r3 =>
          rw [h3] at h
          simp only [Option.some.injEq, Prod.mk.injEq] at h
          obtain ⟨hm, hr⟩ := h
          subst hr
          have s1 : r1 <:+ s := stripRunes_suffix _ _ _ h1
          have s2 : (c :: r2) <:+ r1 := by rw [← h2]; exact dropWhile_isSpace_suffix r1
          have s3 : r2 <:+ (c :: r2) := List.suffix_cons c r2
          have s4 : r3 <:+ r2 :=
            (stripRunes_suffix _ _ _ h3).trans (dropWhile_isSpace_suffix r2)
          have l1 := s1.length_le
          have l2 := s2.length_le
          have l4 := s4.length_le
          simp only [List.length_cons] at l2
          obtain ⟨x, hx⟩ := (s4.trans (s3.trans (s2.trans s1)))
          have hlen : s.length = x.length + r3.length := by rw [← hx]; simp
          have hm2 : m = x := by
            rw [← hm, ← hx]
            simp
          subst hm2
          refine ⟨hx.symm, ?_⟩
          intro e
          subst e
          simp only [List.length_nil] at hlen
          omega
      · simp [hc] at h

/-! ## Lemmas on the matcher, for a pattern of plain literals -/

theorem stripLit_append (p r : List Nat) (hp : plain p) : stripLit p (p ++ r) = some r :=
  (stripLit_plain p hp (p ++ r) r).2 rfl

theorem dropWhile_spaces_append (ws : List Byte) (c : Byte) (y : List Byte)
    (hws : ∀ b ∈ ws, isSpace b = true) (hc : isSpace c = false) :
    (ws ++ c :: y).dropWhile isSpace = c :: y := by
  induction ws with
  | nil => simp [List.dropWhile, hc]
  | cons a ws ih =>
    have ha : isSpace a = true := hws a (List.mem_cons_self a ws)
    have hr : ∀ b ∈ ws, isSpace b = true := fun b hb => hws b (List.mem_cons_of_mem a hb)
    simp [List.dropWhile, ha, ih hr]

theorem takeWhile_spaces_append (ws : List Byte) (c : Byte) (y : List Byte)
    (hws : ∀ b ∈ ws, isSpace b = true) (hc : isSpace c = false) :
    (ws ++ c :: y).takeWhile isSpace = ws := by
  induction ws with
  | nil => simp [List.takeWhile, hc]
  | cons a ws ih =>
    have ha : isSpace a = true := hws a (List.mem_cons_self a ws)
    have hr : ∀ b ∈ ws, isSpace b = true := fun b hb => hws b (List.mem_cons_of_mem a hb)
    simp [List.takeWhile, ha, ih hr]

theorem takeWhile_spaces (l : List Byte) : ∀ b ∈ l.takeWhile isSpace, isSpace b = true := by
  intro b hb
  exact (List.mem_takeWhile_imp hb)

/-- What the anchored run returns is a match in the sense of the specification, and the
input is the match followed by the rest. -/
theorem matchAt_sound (re : Regexp) (hk : plain re.key) (hp : plain re.value)
    (s m rest : List Byte) (h : re.matchAt s = some (m, rest)) :
    s = m ++ rest ∧ re.IsMatch m := by
  have hsplit := (matchAt_split re s m rest h).1
  refine ⟨hsplit, ?_⟩
  unfold Regexp.matchAt at h
  cases h1 : stripLit re.key s with
  | none => simp [h1] at h
  | some r1 =>
    rw [h1] at h
    simp only at h
    cases h2 : r1.dropWhile isSpace with
    | nil => simp [h2] at h
    | cons c r2 =>
      rw [h2] at h
      simp only at h
      by_cases hc : c = 58
      · subst hc
        simp only [if_true] at h
        cases h3 : stripLit re.value (r2.dropWhile isSpace) with
        | none => simp [h3] at h
        | some r3 =>
          rw [h3] at h
          simp only [Option.some.injEq, Prod.mk.injEq] at h
          obtain ⟨_, hr⟩ := h
          subst hr
          have e1 : s = re.key ++ r1 := (stripLit_plain _ hk _ _).1 h1
          have e2 : r1 = r1.takeWhile isSpace ++ 58 :: r2 := by
            conv_lhs => rw [← List.takeWhile_append_dropWhile isSpace r1, h2]
          have e3 : r2.dropWhile isSpace = re.value ++ r3 := (stripLit_plain _ hp _ _).1 h3
          have e4 : r2 = r2.takeWhile isSpace ++ (re.value ++ r3) := by
            conv_lhs => rw [← List.takeWhile_append_dropWhile isSpace r2, e3]
          refine ⟨r1.takeWhile isSpace, r2.takeWhile isSpace, takeWhile_spaces r1,
            takeWhile_spaces r2, ?_⟩
          have e5 : s = (re.key ++ r1.takeWhile isSpace ++ 58 :: r2.takeWhile isSpace ++
              re.value) ++ r3 := by
            rw [e1]
            conv_lhs => rw [e2, e4]
            simp [List.append_assoc]
          rw [e5] at hsplit
          exact (List.append_cancel_right hsplit).symm
      · simp [hc] at h

/-- The anchored run finds every match whose value starts with a byte that is not white
space. -/
theorem matchAt_complete (re : Regexp) (hk : plain re.key) (hp : plain re.value)
    (ws1 ws2 rest : List Byte) (v : Byte) (vs : List Byte)
    (hv : re.value = v :: vs) (hvs : isSpace v = false)
    (h1 : ∀ b ∈ ws1, isSpace b = true) (h2 : ∀ b ∈ ws2, isSpace b = true) :
    re.matchAt ((re.key ++ ws1 ++ 58 :: ws2 ++ re.value) ++ rest) =
      some (re.key ++ ws1 ++ 58 :: ws2 ++ re.value, rest) := by
  have hcolon : isSpace 58 = false := by decide
  have e : (re.key ++ ws1 ++ 58 :: ws2 ++ re.value) ++ rest
      = re.key ++ (ws1 ++ 58 :: (ws2 ++ v :: (vs ++ rest))) := by
    simp [hv, List.append_assoc]
  have d2 : (ws2 ++ v :: (vs ++ rest)).dropWhile isSpace = re.value ++ rest := by
    rw [dropWhile_spaces_append ws2 v _ h2 hvs, hv]; rfl
  have htake : ((re.key ++ ws1 ++ 58 :: ws2 ++ re.value) ++ rest).take
      (((re.key ++ ws1 ++ 58 :: ws2 ++ re.value) ++ rest).length - rest.length)
      = re.key ++ ws1 ++ 58 :: ws2 ++ re.value := by
    rw [List.length_append, Nat.add_sub_cancel, List.take_left']
    rfl
  generalize (re.key ++ ws1 ++ 58 :: ws2 ++ re.value) ++ rest = S at htake e
  have k1 : stripLit re.key S = some (ws1 ++ 58 :: (ws2 ++ v :: (vs ++ rest))) := by
    rw [e]; exact stripLit_append _ _ hk
  unfold Regexp.matchAt
  rw [k1]
  simp only
  rw [dropWhile_spaces_append ws1 58 _ h1 hcolon]
  simp only [if_true]
  rw [d2, stripLit_append _ _ hp]
  simp only
  rw [htake]

/-- With a value that starts with a byte that is not white space, the anchored run fails
exactly where no match starts. -/
theorem matchAt_eq_none_iff (re : Regexp) (hk : plain re.key) (hp : plain re.value)
    (v : Byte) (vs : List Byte)
    (hv : re.value = v :: vs) (hvs : isSpace v = false) (s : List Byte) :
    re.matchAt s = none ↔ ¬ re.StartsMatch s := by
  constructor
  · rintro h ⟨m, rest, ⟨ws1, ws2, h1, h2, hm⟩, hs⟩
    subst hm; subst hs
    rw [matchAt_complete re hk hp ws1 ws2 rest v vs hv hvs h1 h2] at h
    exact Option.noConfusion h
  · intro h
    cases hm : re.matchAt s with
    | none => rfl
    | some r =>
      obtain ⟨m, rest⟩ := r
      obtain ⟨hs, hM⟩ := matchAt_sound re hk hp s m rest hm
      exact absurd ⟨m, rest, hM, hs⟩ h

theorem isMatch_ne_nil (re : Regexp) (m : List Byte) (h : re.IsMatch m) : m ≠ [] := by
  obtain ⟨ws1, ws2, _, _, hm⟩ := h
  subst hm
  simp

/-- The leftmost search returns a match, the bytes around it, and no anchored run succeeds
at a position before it. -/
theorem doExecute_some (re : Regexp) (s g m rest : List Byte)
    (h : re.doExecute s = some (g, m, rest)) :
    s = g ++ m ++ rest ∧ re.matchAt (m ++ rest) = some (m, rest) ∧
      ∀ g1 g2 : List Byte, g = g1 ++ g2 → g2 ≠ [] → re.matchAt (g2 ++ (m ++ rest)) = none := by
  induction s generalizing g with
  | nil =>
    unfold Regexp.doExecute at h
    cases hm : re.matchAt [] with
    | none => simp [hm] at h
    | some r =>
      obtain ⟨m1, r1⟩ := r
      rw [hm] at h
      simp only [Option.some.injEq, Prod.mk.injEq] at h
      obtain ⟨hg, hm1, hr1⟩ := h
      subst hg; subst hm1; subst hr1
      have hs := (matchAt_split re [] m1 r1 hm).1
      refine ⟨by simpa using hs, by rw [← hs]; exact hm, ?_⟩
      intro g1 g2 hg hne
      have : g2 = [] := (List.append_eq_nil.1 hg.symm).2
      exact absurd this hne
  | cons c cs ih =>
    unfold Regexp.doExecute at h
    cases hm : re.matchAt (c :: cs) with
    | some r =>
      obtain ⟨m1, r1⟩ := r
      rw [hm] at h
      simp only [Option.some.injEq, Prod.mk.injEq] at h
      obtain ⟨hg, hm1, hr1⟩ := h
      subst hg; subst hm1; subst hr1
      have hs := (matchAt_split re (c :: cs) m1 r1 hm).1
      refine ⟨by simpa using hs, by rw [← hs]; exact hm, ?_⟩
      intro g1 g2 hg hne
      have : g2 = [] := (List.append_eq_nil.1 hg.symm).2
      exact absurd this hne
    | none =>
      rw [hm] at h
      simp only at h
      cases hd : re.doExecute cs with
      | none => simp [hd] at h
      | some r =>
        obtain ⟨g0, m1, r1⟩ := r
        rw [hd] at h
        simp only [Option.some.injEq, Prod.mk.injEq] at h
        obtain ⟨hg, hm1, hr1⟩ := h
        subst hg; subst hm1; subst hr1
        obtain ⟨e1, e2, e3⟩ := ih g0 hd
        refine ⟨by simp [e1], e2, ?_⟩
        intro g1 g2 hg hne
        cases g1 with
        | nil =>
          simp only [List.nil_append] at hg
          subst hg
          have : (c :: g0) ++ (m1 ++ r1) = c :: cs := by simp [e1]
          rw [this]; exact hm
        | cons a g1 =>
          simp only [List.cons_append, List.cons.injEq] at hg
          exact e3 g1 g2 hg.2 hne

/-- The text after the leftmost match is shorter than the input. -/
theorem doExecute_rest_length (re : Regexp) (s g m rest : List Byte)
    (h : re.doExecute s = some (g, m, rest)) : rest.length < s.length := by
  obtain ⟨e1, e2, _⟩ := doExecute_some re s g m rest h
  have hne := (matchAt_split re _ m rest e2).2
  have hp : 0 < m.length := List.length_pos.2 hne
  rw [e1]
  simp only [List.length_append]
  omega

/-- When the leftmost search fails, no anchored run succeeds at any position. -/
theorem doExecute_none (re : Regexp) (s : List Byte) (h : re.doExecute s = none) :
    ∀ t : List Byte, t <:+ s → re.matchAt t = none := by
  induction s with
  | nil =>
    intro t ht
    have : t = [] := List.suffix_nil.1 ht
    subst this
    unfold Regexp.doExecute at h
    cases hm : re.matchAt [] with
    | none => rfl
    | some r => obtain ⟨m1, r1⟩ := r; simp [hm] at h
  | cons c cs ih =>
    unfold Regexp.doExecute at h
    cases hm : re.matchAt (c :: cs) with
    | some r => obtain ⟨m1, r1⟩ := r; simp [hm] at h
    | none =>
      rw [hm] at h
      simp only at h
      cases hd : re.doExecute cs with
      | some r => obtain ⟨g0, m1, r1⟩ := r; simp [hd] at h
      | none =>
        intro t ht
        rcases List.suffix_cons_iff.1 ht with e | e
        · subst e; exact hm
        · exact ih hd t e

/-- The converse: if no anchored run succeeds anywhere, the leftmost search fails. -/
theorem doExecute_eq_none_of (re : Regexp) (s : List Byte)
    (h : ∀ t : List Byte, t <:+ s → re.matchAt t = none) : re.doExecute s = none := by
  cases hd : re.doExecute s with
  | none => rfl
  | some r =>
    obtain ⟨g, m, rest⟩ := r
    obtain ⟨e1, e2, _⟩ := doExecute_some re s g m rest hd
    have hsuf : (m ++ rest) <:+ s := ⟨g, by rw [e1, List.append_assoc]⟩
    rw [h _ hsuf] at e2
    exact Option.noConfusion e2

/-- With enough rounds the loop of `replaceAll` replaces every leftmost non-overlapping
match and keeps every other byte. -/
theorem replaceAllLoop_replaced (re : Regexp) (hk : plain re.key) (hp : plain re.value)
    (repl : List Byte → List Byte)
    (v : Byte) (vs : List Byte) (hv : re.value = v :: vs) (hvs : isSpace v = false)
    (fuel : Nat) (s : List Byte) (hf : s.length < fuel) :
    re.Replaced repl s (re.replaceAllLoop repl fuel s) := by
  induction fuel generalizing s with
  | zero => exact absurd hf (Nat.not_lt_zero _)
  | succ fuel ih =>
    unfold Regexp.replaceAllLoop
    cases hd : re.doExecute s with
    | none =>
      simp only
      apply Regexp.Replaced.done
      intro t ht
      exact (matchAt_eq_none_iff re hk hp v vs hv hvs t).1 (doExecute_none re s hd t ht)
    | some r =>
      obtain ⟨g, m, rest⟩ := r
      simp only
      obtain ⟨e1, e2, e3⟩ := doExecute_some re s g m rest hd
      have hM : re.IsMatch m := (matchAt_sound re hk hp _ m rest e2).2
      have hlen : rest.length < fuel := by
        have := doExecute_rest_length re s g m rest hd
        omega
      have hrec := ih rest hlen
      have hfree : re.FreeBefore g (m ++ rest) := by
        intro g1 g2 hg hg2
        exact (matchAt_eq_none_iff re hk hp v vs hv hvs _).1 (e3 g1 g2 hg hg2)
      have := @Regexp.Replaced.step re repl g m rest _ hM hfree hrec
      rw [e1]
      exact this

/-! ## Overlaps of a match with a copy of the key -/

theorem suffix_append_cases (t a b : List Byte) (h : t <:+ a ++ b) :
    t <:+ b ∨ ∃ a1 a2 : List Byte, a = a1 ++ a2 ∧ a2 ≠ [] ∧ t = a2 ++ b := by
  obtain ⟨p, hp⟩ := h
  rcases List.append_eq_append_iff.1 hp with ⟨a1, ha, ht⟩ | ⟨c1, _, hb⟩
  · cases a1 with
    | nil => left; rw [ht]; exact List.suffix_refl _
    | cons x a2 => right; exact ⟨p, x :: a2, ha, by simp, ht⟩
  · left; exact ⟨c1, hb.symm⟩

theorem matchAt_none_of_head (re : Regexp) (hp : plain re.key) (q : Byte) (k : List Byte)
    (hk : re.key = q :: k) (c : Byte) (s : List Byte) (hc : c ≠ q) :
    re.matchAt (c :: s) = none := by
  unfold Regexp.matchAt
  cases h1 : stripLit re.key (c :: s) with
  | none => rfl
  | some r1 =>
    have e := (stripLit_plain _ hp _ _).1 h1
    rw [hk] at e
    simp only [List.cons_append, List.cons.injEq] at e
    exact absurd e.1 hc

/-- A match that starts before a copy of the key ends before that copy, when the key is
quoted, the quote occurs nowhere else in a match and the byte after the opening quote is
neither white space nor a colon. -/
theorem startsMatch_before_key (re : Regexp) (q h : Byte) (k1 : List Byte)
    (hkey : re.key = q :: (h :: k1) ++ [q])
    (hq1 : q ∉ h :: k1) (hqv : q ∉ re.value) (hqs : isSpace q = false) (hq58 : q ≠ 58)
    (hh : isSpace h = false) (hh58 : h ≠ 58)
    (g2 y : List Byte) (hg : g2 ≠ []) (hs : re.StartsMatch (g2 ++ (re.key ++ y))) :
    ∃ m c : List Byte, re.IsMatch m ∧ g2 = m ++ c := by
  obtain ⟨m, r, hM, e⟩ := hs
  rcases List.append_eq_append_iff.1 e with ⟨a1, hm, hk⟩ | ⟨c1, hg2, _⟩
  · cases a1 with
    | nil => exact ⟨m, [], hM, by simp [hm]⟩
    | cons x a2 =>
      exfalso
      obtain ⟨ws1, ws2, h1, h2, hmm⟩ := hM
      have hqT : q ∉ ws1 ++ 58 :: ws2 ++ re.value := by
        intro hmem
        simp only [List.mem_append, List.mem_cons] at hmem
        rcases hmem with (hmem | hmem | hmem) | hmem
        · have := h1 q hmem; rw [hqs] at this; exact Bool.noConfusion this
        · exact hq58 hmem
        · have := h2 q hmem; rw [hqs] at this; exact Bool.noConfusion this
        · exact hqv hmem
      rw [hkey] at hk hmm
      simp only [List.cons_append, List.cons.injEq, List.append_assoc] at hk
      obtain ⟨hx, hk2⟩ := hk
      subst hx
      cases g2 with
      | nil => exact hg rfl
      | cons z g3 =>
        rw [hm] at hmm
        simp only [List.cons_append, List.cons.injEq, List.append_assoc] at hmm
        obtain ⟨_, hmm2⟩ := hmm
        have hmm3 : (h :: k1) ++ q :: (ws1 ++ 58 :: ws2 ++ re.value) = g3 ++ q :: a2 := by
          rw [hmm2]; simp [List.append_assoc]
        obtain ⟨_, _, hT⟩ := (List.append_cons_inj_of_not_mem hq1 hqT).1 hmm3
        rw [← hT] at hk2
        cases ws1 with
        | nil =>
          simp only [List.nil_append, List.cons_append, List.cons.injEq] at hk2
          exact hh58 hk2.1
        | cons w ws3 =>
          simp only [List.cons_append, List.cons.injEq] at hk2
          have := h1 w (List.mem_cons_self w ws3)
          rw [← hk2.1, hh] at this
          exact Bool.noConfusion this
  · exact ⟨m, c1, hM, hg2⟩

/-! ## The free-tier pattern -/

theorem freeTier_key :
    isFreeTierRequestRegex.key =
      34 :: (105 :: [115, 70, 114, 101, 101, 84, 105, 101, 114, 82, 101, 113, 117, 101, 115, 116])
        ++ [34] := by decide

theorem freeTier_value : isFreeTierRequestRegex.value = 102 :: [97, 108, 115, 101] := by decide

theorem freeTierReplacement_eq :
    freeTierReplacement =
      34 :: ([105, 115, 70, 114, 101, 101, 84, 105, 101, 114, 82, 101, 113, 117, 101, 115, 116]
        ++ 34 :: [58, 116, 114, 117, 101]) := by decide

theorem freeTier_plain_key : plain isFreeTierRequestRegex.key := by
  unfold plain; decide

theorem freeTier_plain_value : plain isFreeTierRequestRegex.value := by
  unfold plain; decide

theorem freeTierReplacement_key :
    freeTierReplacement = isFreeTierRequestRegex.key ++ [58, 116, 114, 117, 101] := by decide

/-- The replacement text of the free-tier branch holds no `$`: it stands for itself. -/
theorem expand_freeTierReplacement (lib : Stdlib) (m : List Byte) :
    expand lib freeTierReplacement m = freeTierReplacement := rfl

theorem matchAt_replacement (x : List Byte) :
    isFreeTierRequestRegex.matchAt (freeTierReplacement ++ x) = none := rfl

theorem matchAt_replacement_tail (x : List Byte) :
    isFreeTierRequestRegex.matchAt ((34 :: [58, 116, 114, 117, 101]) ++ x) = none := rfl

/-- No match starts inside the replacement text, whatever follows it. -/
theorem matchAt_in_replacement (a1 a2 x : List Byte) (h : freeTierReplacement = a1 ++ a2)
    (hne : a2 ≠ []) : isFreeTierRequestRegex.matchAt (a2 ++ x) = none := by
  cases a2 with
  | nil => exact absurd rfl hne
  | cons c a3 =>
    by_cases hc : c = 34
    · subst hc
      rw [freeTierReplacement_eq] at h
      have n1 : (34 : Byte) ∉
          [105, 115, 70, 114, 101, 101, 84, 105, 101, 114, 82, 101, 113, 117, 101, 115, 116] := by
        decide
      have n2 : (34 : Byte) ∉ [58, 116, 114, 117, 101] := by decide
      cases a1 with
      | nil =>
        simp only [List.nil_append] at h
        rw [← h, ← freeTierReplacement_eq]
        exact matchAt_replacement x
      | cons z a4 =>
        simp only [List.cons_append, List.cons.injEq] at h
        obtain ⟨_, _, hT⟩ := (List.append_cons_inj_of_not_mem n1 n2).1 h.2
        rw [← hT]
        exact matchAt_replacement_tail x
    · exact matchAt_none_of_head _ freeTier_plain_key 34 _ freeTier_key c _ hc

/-- A match of the free-tier pattern that starts before a copy of its key ends before it. -/
theorem freeTier_before_key (g2 y : List Byte) (hg : g2 ≠ [])
    (hs : isFreeTierRequestRegex.StartsMatch (g2 ++ (isFreeTierRequestRegex.key ++ y))) :
    ∃ m c : List Byte, isFreeTierRequestRegex.IsMatch m ∧ g2 = m ++ c :=
  startsMatch_before_key isFreeTierRequestRegex 34 105 _ freeTier_key (by decide)
    (by rw [freeTier_value]; decide) (by decide) (by decide) (by decide) (by decide) g2 y hg hs

theorem freeTier_matchAt_none_iff (s : List Byte) :
    isFreeTierRequestRegex.matchAt s = none ↔ ¬ isFreeTierRequestRegex.StartsMatch s :=
  matchAt_eq_none_iff isFreeTierRequestRegex freeTier_plain_key freeTier_plain_value 102 _
    freeTier_value (by decide) s

/-- The output of the replace loop of the free-tier branch holds no match. -/
theorem replaceAllLoop_freeTier_free (lib : Stdlib) (fuel : Nat) (s : List Byte)
    (hf : s.length < fuel) :
    isFreeTierRequestRegex.doExecute
      (isFreeTierRequestRegex.replaceAllLoop (expand lib freeTierReplacement) fuel s)
        = none := by
  induction fuel generalizing s with
  | zero => exact absurd hf (Nat.not_lt_zero _)
  | succ fuel ih =>
    unfold Regexp.replaceAllLoop
    cases hd : isFreeTierRequestRegex.doExecute s with
    | none => simp only; exact hd
    | some r =>
      obtain ⟨g, m, rest⟩ := r
      simp only
      obtain ⟨e1, e2, e3⟩ := doExecute_some _ s g m rest hd
      have hlen : rest.length < fuel := by
        have := doExecute_rest_length _ s g m rest hd
        omega
      have hrec := ih rest hlen
      apply doExecute_eq_none_of
      intro t ht
      rw [expand_freeTierReplacement, List.append_assoc] at ht
      rcases suffix_append_cases t g _ ht with ht1 | ⟨g1, g2, hg, hg2, ht1⟩
      · rcases suffix_append_cases t freeTierReplacement _ ht1 with ht2 | ⟨a1, a2, ha, ha2, ht2⟩
        · exact doExecute_none _ _ hrec t ht2
        · rw [ht2]; exact matchAt_in_replacement a1 a2 _ ha ha2
      · rw [ht1, freeTier_matchAt_none_iff]
        intro hs
        rw [freeTierReplacement_key, List.append_assoc] at hs
        obtain ⟨m1, c, hM1, hgm⟩ := freeTier_before_key g2 _ hg2 hs
        have hno := (freeTier_matchAt_none_iff _).1 (e3 g1 g2 hg hg2)
        apply hno
        refine ⟨m1, c ++ (m ++ rest), hM1, ?_⟩
        rw [hgm, List.append_assoc]

/-! ## The bounds on the loops, and the specification as a function -/

/-- A template without `$` expands to itself. -/
theorem expand_of_no_dollar (lib : Stdlib) (template m : List Byte)
    (h : (36 : Byte) ∉ template) : expand lib template m = template := by
  have h1 : ∀ b ∈ template, (b != 36) = true := by
    intro b hb
    have : b ≠ 36 := fun e => h (e ▸ hb)
    simpa using this
  have hd : template.dropWhile (fun b => b != 36) = [] := by
    rw [List.dropWhile_eq_nil_iff]; exact h1
  have ht : template.takeWhile (fun b => b != 36) = template := by
    rw [List.takeWhile_eq_self_iff]; exact h1
  unfold expand expandLoop
  simp only [hd, ht]

theorem length_dropWhile_le (p : Byte → Bool) (l : List Byte) :
    (l.dropWhile p).length ≤ l.length :=
  (List.dropWhile_sublist p).length_le

theorem extract_rest_length (lib : Stdlib) (str name rest : List Byte) (num : Int)
    (h : extract lib str = some (name, num, rest)) : rest.length ≤ str.length := by
  cases str with
  | nil => simp [extract] at h
  | cons c0 tl =>
    by_cases hb : c0 = 123
    · subst hb
      by_cases hn : nameLen lib tl.length tl = 0
      · simp [extract, hn] at h
      · cases hdw : tl.drop (nameLen lib tl.length tl) with
        | nil => simp [extract, hn, hdw] at h
        | cons d rest1 =>
          have h1 : (tl.drop (nameLen lib tl.length tl)).length ≤ tl.length := by
            rw [List.length_drop]; omega
          rw [hdw] at h1
          simp only [List.length_cons] at h1 ⊢
          by_cases hd : d = 125
          · subst hd
            simp only [extract, beq_self_eq_true, if_true, hn, hdw, if_false,
              Option.some.injEq, Prod.mk.injEq] at h
            obtain ⟨_, _, hr⟩ := h
            subst hr
            omega
          · simp [extract, hn, hdw, hd] at h
    · have hb2 : (c0 == 123) = false := by simpa using hb
      by_cases hn : nameLen lib (c0 :: tl).length (c0 :: tl) = 0
      · simp only [extract, hb2, hn, Bool.false_eq_true, if_false, if_true] at h
        exact Option.noConfusion h
      · simp only [extract, hb2, hn, Bool.false_eq_true, if_false, Option.some.injEq,
          Prod.mk.injEq] at h
        obtain ⟨_, _, hr⟩ := h
        subst hr
        rw [List.length_drop]
        omega

/-- The bound on the rounds of the expansion is never reached: any two bounds above the
length of the template give the same text. -/
theorem expandLoop_fuel (lib : Stdlib) (m : List Byte) (fuel1 fuel2 : Nat) (t : List Byte)
    (h1 : t.length < fuel1) (h2 : t.length < fuel2) :
    expandLoop lib m fuel1 t = expandLoop lib m fuel2 t := by
  induction fuel1 generalizing fuel2 t with
  | zero => exact absurd h1 (Nat.not_lt_zero _)
  | succ f1 ih =>
    cases fuel2 with
    | zero => exact absurd h2 (Nat.not_lt_zero _)
    | succ f2 =>
      unfold expandLoop
      simp only
      have hlen : (t.dropWhile (fun b => b != 36)).length ≤ t.length :=
        length_dropWhile_le _ _
      cases hd : t.dropWhile (fun b => b != 36) with
      | nil => rfl
      | cons c after =>
        rw [hd] at hlen
        simp only [List.length_cons] at hlen
        simp only
        split
        · rename_i after1
          simp only [List.length_cons] at hlen
          rw [ih f2 after1 (by omega) (by omega)]
        · cases he : extract lib after with
          | none =>
            simp only
            rw [ih f2 after (by omega) (by omega)]
          | some r =>
            obtain ⟨name, num, rest⟩ := r
            have hr := extract_rest_length lib after name rest num he
            simp only
            rw [ih f2 rest (by omega) (by omega)]

/-- The bound on the rounds of `replaceAll` is never reached: any two bounds above the length
of the input give the same text. -/
theorem replaceAllLoop_fuel (re : Regexp) (repl : List Byte → List Byte) (fuel1 fuel2 : Nat)
    (s : List Byte) (h1 : s.length < fuel1) (h2 : s.length < fuel2) :
    re.replaceAllLoop repl fuel1 s = re.replaceAllLoop repl fuel2 s := by
  induction fuel1 generalizing fuel2 s with
  | zero => exact absurd h1 (Nat.not_lt_zero _)
  | succ f1 ih =>
    cases fuel2 with
    | zero => exact absurd h2 (Nat.not_lt_zero _)
    | succ f2 =>
      unfold Regexp.replaceAllLoop
      cases hd : re.doExecute s with
      | none => rfl
      | some r =>
        obtain ⟨g, m, rest⟩ := r
        simp only
        have hl := doExecute_rest_length re s g m rest hd
        rw [ih f2 rest (by omega) (by omega)]

/-- The bound on the rounds of the name loop is never reached. -/
theorem nameLen_fuel (lib : Stdlib) (f1 f2 : Nat) (s : List Nat) (h1 : s.length ≤ f1)
    (h2 : s.length ≤ f2) : nameLen lib f1 s = nameLen lib f2 s := by
  induction f1 generalizing f2 s with
  | zero =>
    have : s = [] := List.eq_nil_of_length_eq_zero (Nat.le_zero.1 h1)
    subst this
    cases f2 <;> rfl
  | succ f1 ih =>
    cases s with
    | nil => cases f2 <;> rfl
    | cons c tl =>
      cases f2 with
      | zero => simp at h2
      | succ f2 =>
        have hw := DecodeRune_width_pos c tl
        have hl : ((c :: tl).drop (DecodeRune (c :: tl)).2).length ≤ tl.length := by
          simp only [List.length_drop, List.length_cons]
          omega
        simp only [List.length_cons] at h1 h2
        simp only [nameLen]
        rw [ih f2 _ (by omega) (by omega)]

/-- The specification of the rewrite fixes its result: two texts that both are `s` with every
leftmost non-overlapping match replaced are equal. -/
theorem Replaced_unique (re : Regexp) (hk : plain re.key) (hp : plain re.value)
    (repl : List Byte → List Byte) (v : Byte)
    (vs : List Byte) (hv : re.value = v :: vs) (hvs : isSpace v = false)
    (s o1 o2 : List Byte) (h1 : re.Replaced repl s o1) (h2 : re.Replaced repl s o2) :
    o1 = o2 := by
  have huniq : ∀ m1 r1 m2 r2 : List Byte, re.IsMatch m1 → re.IsMatch m2 →
      m1 ++ r1 = m2 ++ r2 → m1 = m2 ∧ r1 = r2 := by
    intro m1 r1 m2 r2 hm1 hm2 e
    obtain ⟨a1, a2, ha1, ha2, em1⟩ := hm1
    obtain ⟨b1, b2, hb1, hb2, em2⟩ := hm2
    have c1 := matchAt_complete re hk hp a1 a2 r1 v vs hv hvs ha1 ha2
    have c2 := matchAt_complete re hk hp b1 b2 r2 v vs hv hvs hb1 hb2
    rw [← em1] at c1
    rw [← em2, ← e, c1] at c2
    simp only [Option.some.injEq, Prod.mk.injEq] at c2
    exact c2
  induction h1 generalizing o2 with
  | done s hfree =>
    cases h2 with
    | done _ _ => rfl
    | step g m rest out hm _ _ =>
      exact absurd ⟨m, rest, hm, rfl⟩ (hfree (m ++ rest) ⟨g, by simp [List.append_assoc]⟩)
  | step g m rest out hm hfb _ ih =>
    generalize hs : g ++ m ++ rest = s at h2
    cases h2 with
    | done _ hfree =>
      exact absurd ⟨m, rest, hm, rfl⟩
        (hfree (m ++ rest) ⟨g, by rw [← hs]; simp [List.append_assoc]⟩)
    | step g2 m2 rest2 out2 hm2 hfb2 hrec2 =>
      rw [List.append_assoc, List.append_assoc] at hs
      have hg : g = g2 := by
        rcases List.append_eq_append_iff.1 hs with ⟨a, hga, hma⟩ | ⟨c, hgc, hmc⟩
        · cases a with
          | nil => simpa using hga.symm
          | cons x a1 =>
            exact absurd ⟨m, rest, hm, hma.symm⟩ (hfb2 g (x :: a1) hga (by simp))
        · cases c with
          | nil => simpa using hgc
          | cons x c1 =>
            exact absurd ⟨m2, rest2, hm2, hmc.symm⟩ (hfb g2 (x :: c1) hgc (by simp))
      subst hg
      have hmr := huniq m rest m2 rest2 hm hm2 (List.append_cancel_left hs)
      obtain ⟨em, er⟩ := hmr
      subst em; subst er
      rw [ih out2 hrec2]

/-! ## Lemmas on the hook -/

theorem freeSearchApplies_iff (st : Settings) (req : Request) :
    freeSearchApplies st req = true ↔
      st.enableFreeSearch = true ∧ req.path = "/api/internal" ∧
        (req.rawQuery = "webSearch2" ∨ req.rawQuery = "extractWebPageContent") := by
  simp [freeSearchApplies, internalAPIPath, webSearchQuery, extractWebPageContentQuery,
    and_assoc]

theorem freeSearchStep_of_not_applies (lib : Stdlib) (st : Settings) (req : Request)
    (h : freeSearchApplies st req = false) : freeSearchStep lib st req = (req, []) := by
  simp [freeSearchStep, h]

theorem freeSearchStep_path (lib : Stdlib) (st : Settings) (req : Request) :
    (freeSearchStep lib st req).1.path = req.path := by
  unfold freeSearchStep
  by_cases ha : freeSearchApplies st req = true
  · rw [if_pos ha]
    cases hb : req.body with
    | none => rfl
    | some body =>
      simp only
      by_cases he : body.readErr = true
      · simp [he]
      · by_cases hm : isFreeTierRequestRegex.Match body.data = true <;> simp [he, hm]
  · rw [if_neg ha]

theorem modelMappingStep_of_path_ne (lib : Stdlib) (st : Settings) (order : ModelMap)
    (req : Request) (h : req.path ≠ anthropicMessagesPath) :
    modelMappingStep lib st order req = some (req, []) := by
  simp [modelMappingStep, h]

theorem freeSearchApplies_of_path_ne (st : Settings) (req : Request)
    (h : req.path ≠ internalAPIPath) : freeSearchApplies st req = false := by
  simp [freeSearchApplies, h]

/-- On a path other than the messages path the hook is its first block. -/
theorem Director_of_path_ne_messages (lib : Stdlib) (st : Settings) (order : ModelMap)
    (req : Request) (h : req.path ≠ anthropicMessagesPath) :
    Director lib st order req =
      some (freeSearchStep lib st { req with host := st.upstreamHost }) := by
  have hp : (freeSearchStep lib st { req with host := st.upstreamHost }).1.path
      ≠ anthropicMessagesPath := by
    rw [freeSearchStep_path]; exact h
  unfold Director
  rw [modelMappingStep_of_path_ne lib st order _ hp]
  simp

/-- On a path other than the internal path the hook is its second block. -/
theorem Director_of_path_ne_internal (lib : Stdlib) (st : Settings) (order : ModelMap)
    (req : Request) (h : req.path ≠ internalAPIPath) :
    Director lib st order req =
      modelMappingStep lib st order { req with host := st.upstreamHost } := by
  have hp : freeSearchApplies st { req with host := st.upstreamHost } = false :=
    freeSearchApplies_of_path_ne st _ h
  unfold Director
  rw [freeSearchStep_of_not_applies lib st _ hp]
  cases modelMappingStep lib st order { req with host := st.upstreamHost } with
  | none => rfl
  | some r => simp

theorem internal_ne_messages : internalAPIPath ≠ anthropicMessagesPath := by decide

/-- What the first block does to a body it can read. -/
theorem freeSearchStep_readable (lib : Stdlib) (st : Settings) (req : Request)
    (data : List Byte)
    (ha : freeSearchApplies st req = true) (hb : req.body = some ⟨data, false⟩) :
    (freeSearchStep lib st req).1.body = some ⟨freeTierRewrite lib data, false⟩ := by
  unfold freeSearchStep freeTierRewrite
  rw [if_pos ha, hb]
  simp only
  by_cases hm : isFreeTierRequestRegex.Match data = true
  · simp [hm]
  · simp [hm]

theorem Match_eq_false_iff_free (re : Regexp) (hk : plain re.key) (hp : plain re.value)
    (v : Byte) (vs : List Byte)
    (hv : re.value = v :: vs) (hvs : isSpace v = false) (s : List Byte) :
    re.Match s = false ↔ re.Free s := by
  unfold Regexp.Match Regexp.Free
  constructor
  · intro h t ht
    have hd : re.doExecute s = none := by
      cases hd : re.doExecute s with
      | none => rfl
      | some r => rw [hd] at h; exact Bool.noConfusion h
    exact (matchAt_eq_none_iff re hk hp v vs hv hvs t).1 (doExecute_none re s hd t ht)
  · intro h
    have hd : re.doExecute s = none :=
      doExecute_eq_none_of re s
        (fun t ht => (matchAt_eq_none_iff re hk hp v vs hv hvs t).2 (h t ht))
    rw [hd]; rfl

theorem freeTier_Match_false_iff (s : List Byte) :
    isFreeTierRequestRegex.Match s = false ↔ isFreeTierRequestRegex.Free s :=
  Match_eq_false_iff_free isFreeTierRequestRegex freeTier_plain_key freeTier_plain_value 102 _
    freeTier_value (by decide) s

/-- The free-tier rewrite replaces every leftmost non-overlapping match by the replacement
text and keeps the other bytes. -/
theorem freeTierRewrite_replaced (lib : Stdlib) (data : List Byte) :
    isFreeTierRequestRegex.Replaced (fun _ => freeTierReplacement) data
      (freeTierRewrite lib data) := by
  have hfun : expand lib freeTierReplacement = fun _ => freeTierReplacement :=
    funext (expand_freeTierReplacement lib)
  unfold freeTierRewrite
  by_cases hm : isFreeTierRequestRegex.Match data = true
  · rw [if_pos hm]
    unfold Regexp.ReplaceAll
    rw [hfun]
    exact replaceAllLoop_replaced isFreeTierRequestRegex freeTier_plain_key
      freeTier_plain_value _ 102 _ freeTier_value (by decide) _ data (Nat.lt_succ_self _)
  · rw [if_neg hm]
    have hm2 : isFreeTierRequestRegex.Match data = false := by
      cases h : isFreeTierRequestRegex.Match data with
      | true => exact absurd h hm
      | false => rfl
    exact Regexp.Replaced.done data ((freeTier_Match_false_iff data).1 hm2)

theorem freeTierRewrite_of_free (lib : Stdlib) (data : List Byte)
    (h : isFreeTierRequestRegex.Free data) : freeTierRewrite lib data = data := by
  unfold freeTierRewrite
  rw [(freeTier_Match_false_iff data).2 h]
  simp

theorem freeTierRewrite_Match (lib : Stdlib) (b : List Byte) :
    isFreeTierRequestRegex.Match (freeTierRewrite lib b) = false := by
  unfold freeTierRewrite
  by_cases hm : isFreeTierRequestRegex.Match b = true
  · rw [if_pos hm]
    unfold Regexp.Match Regexp.ReplaceAll
    rw [replaceAllLoop_freeTier_free lib _ b (Nat.lt_succ_self _)]
    rfl
  · rw [if_neg hm]
    cases h : isFreeTierRequestRegex.Match b with
    | true => exact absurd h hm
    | false => rfl

/-! ## Lemmas on the model map -/

theorem mapAssign_keys (m : ModelMap) (k v : List Byte) :
    (mapAssign m k v).map Prod.fst =
      if k ∈ m.map Prod.fst then m.map Prod.fst else m.map Prod.fst ++ [k] := by
  induction m with
  | nil => simp [mapAssign]
  | cons e tl ih =>
    obtain ⟨k1, v1⟩ := e
    by_cases h : k1 = k
    · subst h
      simp [mapAssign]
    · have h2 : ¬ k = k1 := fun e => h e.symm
      simp only [mapAssign, if_neg h, List.map_cons, ih, List.mem_cons, h2, false_or]
      by_cases hk : k ∈ tl.map Prod.fst
      · simp [hk]
      · simp [hk]

theorem mapAssign_nodup (m : ModelMap) (k v : List Byte) (hn : (m.map Prod.fst).Nodup) :
    ((mapAssign m k v).map Prod.fst).Nodup := by
  rw [mapAssign_keys]
  by_cases hk : k ∈ m.map Prod.fst
  · rw [if_pos hk]; exact hn
  · rw [if_neg hk]
    exact List.Nodup.append hn (List.nodup_singleton k) (by simpa using hk)

theorem mem_mapAssign (m : ModelMap) (k v k1 v1 : List Byte) (hn : (m.map Prod.fst).Nodup) :
    (k1, v1) ∈ mapAssign m k v ↔ (k1 = k ∧ v1 = v) ∨ (k1 ≠ k ∧ (k1, v1) ∈ m) := by
  induction m with
  | nil => simp [mapAssign]
  | cons e tl ih =>
    obtain ⟨k2, v2⟩ := e
    have hn2 : (tl.map Prod.fst).Nodup := (List.nodup_cons.1 hn).2
    have hk2 : k2 ∉ tl.map Prod.fst := (List.nodup_cons.1 hn).1
    by_cases h : k2 = k
    · subst h
      simp only [mapAssign, if_true, List.mem_cons, Prod.mk.injEq]
      constructor
      · rintro (h1 | h1)
        · exact Or.inl h1
        · right
          refine ⟨?_, Or.inr h1⟩
          intro e
          subst e
          exact hk2 (List.mem_map.2 ⟨(k1, v1), h1, rfl⟩)
      · rintro (h1 | ⟨h1, h2 | h2⟩)
        · exact Or.inl h1
        · exact absurd h2.1 h1
        · exact Or.inr h2
    · simp only [mapAssign, if_neg h, List.mem_cons, Prod.mk.injEq, ih hn2]
      constructor
      · rintro (⟨h1, h2⟩ | h1 | ⟨h1, h2⟩)
        · right; exact ⟨by rw [h1]; exact h, Or.inl ⟨h1, h2⟩⟩
        · exact Or.inl h1
        · exact Or.inr ⟨h1, Or.inr h2⟩
      · rintro (h1 | ⟨h1, h2 | h2⟩)
        · exact Or.inr (Or.inl h1)
        · exact Or.inl h2
        · exact Or.inr (Or.inr ⟨h1, h2⟩)

/-- The target a sequence of rules gives a source: the target of the latest rule with that
source. -/
theorem foldl_mapAssign (ms : List ModelMapping) (acc : ModelMap)
    (hn : (acc.map Prod.fst).Nodup) :
    ((ms.foldl (fun a m => mapAssign a m.From m.To) acc).map Prod.fst).Nodup ∧
    ∀ k v : List Byte, (k, v) ∈ ms.foldl (fun a m => mapAssign a m.From m.To) acc ↔
      (ms.reverse.find? (fun m => decide (m.From = k))).map ModelMapping.To = some v ∨
        (ms.reverse.find? (fun m => decide (m.From = k)) = none ∧ (k, v) ∈ acc) := by
  induction ms generalizing acc with
  | nil => simp [hn]
  | cons m ms ih =>
    have hn1 := mapAssign_nodup acc m.From m.To hn
    obtain ⟨ih1, ih2⟩ := ih (mapAssign acc m.From m.To) hn1
    refine ⟨ih1, ?_⟩
    intro k v
    simp only [List.foldl_cons, List.reverse_cons, List.find?_append]
    rw [ih2 k v, mem_mapAssign acc m.From m.To k v hn]
    cases hf : ms.reverse.find? (fun m => decide (m.From = k)) with
    | some m1 => simp
    | none =>
      by_cases hk : m.From = k
      · subst hk
        simp [List.find?, eq_comm]
      · have hk2 : ¬ k = m.From := fun e => hk e.symm
        simp [List.find?, hk, hk2]

/-- Every entry of `modelMap` pairs a source with the target of the latest rule that has this
source. -/
theorem mem_buildModelMap (ms : List ModelMapping) (k v : List Byte) :
    (k, v) ∈ buildModelMap ms ↔
      (ms.reverse.find? (fun m => decide (m.From = k))).map ModelMapping.To = some v := by
  have := (foldl_mapAssign ms [] (by simp)).2 k v
  unfold buildModelMap
  rw [this]
  simp

theorem buildModelMap_nodup (ms : List ModelMapping) :
    ((buildModelMap ms).map Prod.fst).Nodup :=
  (foldl_mapAssign ms [] (by simp)).1

/-- Every entry of `modelMap` comes from a configured rule. -/
theorem mem_buildModelMap_rule (ms : List ModelMapping) (k v : List Byte)
    (h : (k, v) ∈ buildModelMap ms) : ∃ m ∈ ms, m.From = k ∧ m.To = v := by
  rw [mem_buildModelMap] at h
  cases hf : ms.reverse.find? (fun m => decide (m.From = k)) with
  | none => rw [hf] at h; simp at h
  | some m =>
    rw [hf] at h
    simp only [Option.map_some', Option.some.injEq] at h
    have h1 := List.mem_of_find?_eq_some hf
    have h2 := List.find?_some hf
    exact ⟨m, List.mem_reverse.1 h1, by simpa using h2, h⟩

/-- Every configured source is a key of `modelMap`. -/
theorem buildModelMap_has_source (ms : List ModelMapping) (m : ModelMapping) (h : m ∈ ms) :
    ∃ v : List Byte, (m.From, v) ∈ buildModelMap ms := by
  cases hf : ms.reverse.find? (fun m1 => decide (m1.From = m.From)) with
  | none =>
    rw [List.find?_eq_none] at hf
    have := hf m (List.mem_reverse.2 h)
    simp at this
  | some m1 =>
    refine ⟨m1.To, ?_⟩
    rw [mem_buildModelMap, hf]
    rfl

/-! ## Lemmas on the mapping loop and the headers -/

/-- When every entry compiles, the loop applies the first entry, in the order of the visit,
whose pattern matches. -/
theorem mappingLoop_of_compiles (lib : Stdlib) (data : List Byte) (order : ModelMap)
    (hc : ∀ e ∈ order, compiles lib e.1 = true) :
    mappingLoop lib data order =
      match order.find? (fun e => (modelPattern e.1).Match data) with
      | some e =>
        LoopResult.applied ((modelPattern e.1).ReplaceAll lib data (modelReplacement e.2))
          e.1 e.2
      | none => LoopResult.unmatched := by
  induction order with
  | nil => rfl
  | cons e tl ih =>
    obtain ⟨f, t⟩ := e
    have hcf : compiles lib f = true := hc (f, t) (List.mem_cons_self _ _)
    have ih2 := ih (fun e he => hc e (List.mem_cons_of_mem _ he))
    by_cases hm : (modelPattern f).Match data = true
    · simp [mappingLoop, List.find?, hm, hcf]
    · have hm2 : (modelPattern f).Match data = false := by
        cases h : (modelPattern f).Match data with
        | true => exact absurd h hm
        | false => rfl
      simp only [mappingLoop, hcf, hm2, if_true, Bool.false_eq_true, if_false, List.find?]
      exact ih2

theorem mappingLoop_applied (lib : Stdlib) (data : List Byte) (order : ModelMap)
    (out f t : List Byte) (h : mappingLoop lib data order = LoopResult.applied out f t) :
    (f, t) ∈ order ∧ compiles lib f = true ∧ (modelPattern f).Match data = true ∧
      out = (modelPattern f).ReplaceAll lib data (modelReplacement t) := by
  induction order with
  | nil => simp [mappingLoop] at h
  | cons e tl ih =>
    obtain ⟨f1, t1⟩ := e
    by_cases hc : compiles lib f1 = true
    · by_cases hm : (modelPattern f1).Match data = true
      · simp only [mappingLoop, hc, hm, if_true, LoopResult.applied.injEq] at h
        obtain ⟨h1, h2, h3⟩ := h
        subst h2; subst h3
        exact ⟨List.mem_cons_self _ _, hc, hm, h1.symm⟩
      · simp only [mappingLoop, hc, hm, if_true, if_false] at h
        obtain ⟨a, b⟩ := ih h
        exact ⟨List.mem_cons_of_mem _ a, b⟩
    · simp [mappingLoop, hc] at h

theorem mappingLoop_unmatched (lib : Stdlib) (data : List Byte) (order : ModelMap)
    (h : mappingLoop lib data order = LoopResult.unmatched) :
    ∀ e ∈ order, compiles lib e.1 = true ∧ (modelPattern e.1).Match data = false := by
  induction order with
  | nil => intro e he; simp at he
  | cons e tl ih =>
    obtain ⟨f1, t1⟩ := e
    by_cases hc : compiles lib f1 = true
    · by_cases hm : (modelPattern f1).Match data = true
      · simp [mappingLoop, hc, hm] at h
      · simp only [mappingLoop, hc, hm, if_true, if_false] at h
        intro e he
        rcases List.mem_cons.1 he with rfl | he
        · exact ⟨hc, by simpa using hm⟩
        · exact ih h e he
    · simp [mappingLoop, hc] at h

theorem mappingLoop_panicked (lib : Stdlib) (data : List Byte) (order : ModelMap)
    (h : mappingLoop lib data order = LoopResult.panicked) :
    ∃ e ∈ order, compiles lib e.1 = false := by
  induction order with
  | nil => simp [mappingLoop] at h
  | cons e tl ih =>
    obtain ⟨f1, t1⟩ := e
    by_cases hc : compiles lib f1 = true
    · by_cases hm : (modelPattern f1).Match data = true
      · simp [mappingLoop, hc, hm] at h
      · simp only [mappingLoop, hc, hm, if_true, if_false] at h
        obtain ⟨e, he, hce⟩ := ih h
        exact ⟨e, List.mem_cons_of_mem _ he, hce⟩
    · exact ⟨(f1, t1), List.mem_cons_self _ _, by simpa using hc⟩

/-- For a plain source name the pattern matches a body exactly where the text
`"model"`, white space, a colon, white space, `"`, the name, `"` stands in it. -/
theorem modelPattern_Match_false_iff (f s : List Byte) (hf : plain f) :
    (modelPattern f).Match s = false ↔ (modelPattern f).Free s :=
  Match_eq_false_iff_free (modelPattern f) (plain_modelKey f) (plain_modelValue f hf) 34
    (f ++ [34]) (by simp [modelPattern]) (by decide) s

theorem Header.values_Set_self (h : Header) (key value : String) :
    (h.Set key value).values key = some [value] := by
  simp [Header.Set, Header.values, List.lookup]

theorem Header.values_Set_ne (h : Header) (key value key1 : String) (hne : key1 ≠ key) :
    (h.Set key value).values key1 = h.values key1 := by
  have hb : (key1 == key) = false := by simpa using hne
  unfold Header.Set Header.values
  rw [List.lookup_cons, hb]
  simp only
  induction h with
  | nil => rfl
  | cons e tl ih =>
    obtain ⟨k, v⟩ := e
    by_cases hk : k = key
    · subst hk
      have hb2 : (key1 == k) = false := hb
      simp [List.filter, List.lookup_cons, hb2, ih]
    · have hk2 : (k != key) = true := by simpa using hk
      simp only [List.filter, hk2, List.lookup_cons]
      cases hkk : key1 == k with
      | true => rfl
      | false => simpa using ih

/-! ## The ways the blocks and the hook end -/

/-- The ways the second block ends. -/
theorem modelMappingStep_cases (lib : Stdlib) (st : Settings) (order : ModelMap)
    (req : Request) :
    modelMappingStep lib st order req = some (req, []) ∨
    (∃ b : Body, req.body = some b ∧ b.readErr = true ∧
      modelMappingStep lib st order req =
        some ({ req with body := some ⟨b.data, false⟩ }, [LogLine.readWarningMessages])) ∨
    (∃ (b : Body) (out f t : List Byte), req.body = some b ∧ b.readErr = false ∧
      req.path = anthropicMessagesPath ∧
      mappingLoop lib b.data order = LoopResult.applied out f t ∧
      modelMappingStep lib st order req =
        some ({ req with
            contentLength := (out.length : Int)
            header := (req.header.Set "Content-Length" (toString out.length)).Set
              "X-Amp-Mode" "free"
            body := some ⟨out, false⟩ },
          [LogLine.mappedModel f t])) ∨
    (∃ b : Body, req.body = some b ∧ b.readErr = false ∧
      req.path = anthropicMessagesPath ∧ st.enableModelMapping = true ∧
      mappingLoop lib b.data order = LoopResult.panicked ∧
      modelMappingStep lib st order req = none) := by
  unfold modelMappingStep
  by_cases hg : (st.enableModelMapping && req.path == anthropicMessagesPath &&
      decide (0 < (buildModelMap st.modelMappings).length)) = true
  · rw [if_pos hg]
    have hg2 := hg
    simp only [Bool.and_eq_true, beq_iff_eq] at hg2
    have hpath : req.path = anthropicMessagesPath := hg2.1.2
    have hen : st.enableModelMapping = true := hg2.1.1
    cases hb : req.body with
    | none => left; rfl
    | some b =>
      obtain ⟨data, err⟩ := b
      cases err with
      | true =>
        right; left
        exact ⟨⟨data, true⟩, rfl, rfl, by simp⟩
      | false =>
        cases hl : mappingLoop lib data order with
        | unmatched =>
          left
          have : ({ req with body := some ⟨data, false⟩ } : Request) = req := by
            rw [← hb]
          simp [this, hl]
        | applied out f t =>
          right; right; left
          exact ⟨⟨data, false⟩, out, f, t, rfl, rfl, hpath, hl, by simp [hl]⟩
        | panicked =>
          right; right; right
          exact ⟨⟨data, false⟩, rfl, rfl, hpath, hen, hl, by simp [hl]⟩
  · rw [if_neg hg]
    left; rfl

/-- The three ways the first block ends. -/
theorem freeSearchStep_cases (lib : Stdlib) (st : Settings) (req : Request) :
    freeSearchStep lib st req = (req, []) ∨
    (∃ b : Body, req.body = some b ∧ b.readErr = true ∧
      freeSearchStep lib st req =
        ({ req with body := some ⟨b.data, false⟩ }, [LogLine.readWarning req.rawQuery])) ∨
    (∃ b : Body, req.body = some b ∧ b.readErr = false ∧
      freeSearchApplies st req = true ∧ isFreeTierRequestRegex.Match b.data = true ∧
      freeSearchStep lib st req =
        ({ req with
            contentLength :=
              ((isFreeTierRequestRegex.ReplaceAll lib b.data freeTierReplacement).length : Int)
            header := req.header.Set "Content-Length"
              (toString
                (isFreeTierRequestRegex.ReplaceAll lib b.data freeTierReplacement).length)
            body :=
              some ⟨isFreeTierRequestRegex.ReplaceAll lib b.data freeTierReplacement, false⟩ },
          [LogLine.modifiedFreeTier req.rawQuery])) := by
  unfold freeSearchStep
  by_cases hg : freeSearchApplies st req = true
  · rw [if_pos hg]
    cases hb : req.body with
    | none => left; rfl
    | some b =>
      obtain ⟨data, err⟩ := b
      cases err with
      | true =>
        right; left
        exact ⟨⟨data, true⟩, rfl, rfl, by simp⟩
      | false =>
        cases hm : isFreeTierRequestRegex.Match data with
        | false =>
          left
          have : ({ req with body := some ⟨data, false⟩ } : Request) = req := by
            rw [← hb]
          simp [this, hm]
        | true =>
          right; right
          exact ⟨⟨data, false⟩, rfl, rfl, hg, hm, by simp [hm]⟩
  · rw [if_neg hg]
    left; rfl

theorem freeSearchStep_rewrite (lib : Stdlib) (st : Settings) (req : Request) (b : Body)
    (ha : freeSearchApplies st req = true) (hb : req.body = some b) (he : b.readErr = false)
    (hm : isFreeTierRequestRegex.Match b.data = true) :
    (freeSearchStep lib st req).2 = [LogLine.modifiedFreeTier req.rawQuery] := by
  unfold freeSearchStep
  rw [if_pos ha, hb]
  simp [he, hm]

theorem freeSearchStep_readErr (lib : Stdlib) (st : Settings) (req : Request) (b : Body)
    (ha : freeSearchApplies st req = true) (hb : req.body = some b) (he : b.readErr = true) :
    (freeSearchStep lib st req).2 = [LogLine.readWarning req.rawQuery] := by
  unfold freeSearchStep
  rw [if_pos ha, hb]
  simp [he]

/-- The second block on a request it accepts, with a body it can read: what the loop gives
decides how the block ends. -/
theorem modelMappingStep_readable (lib : Stdlib) (st : Settings) (order : ModelMap)
    (req : Request) (data : List Byte)
    (hen : st.enableModelMapping = true) (hp : req.path = anthropicMessagesPath)
    (hlen : 0 < (buildModelMap st.modelMappings).length)
    (hb : req.body = some ⟨data, false⟩) :
    modelMappingStep lib st order req =
      match mappingLoop lib data order with
      | LoopResult.panicked => none
      | LoopResult.applied modifiedBody fromModel toModel =>
        some ({ req with
            contentLength := (modifiedBody.length : Int)
            header := (req.header.Set "Content-Length" (toString modifiedBody.length)).Set
              "X-Amp-Mode" "free"
            body := some ⟨modifiedBody, false⟩ },
          [LogLine.mappedModel fromModel toModel])
      | LoopResult.unmatched => some (req, []) := by
  unfold modelMappingStep
  have hg : (st.enableModelMapping && req.path == anthropicMessagesPath &&
      decide (0 < (buildModelMap st.modelMappings).length)) = true := by
    simp [hen, hp, hlen]
  rw [if_pos hg, hb]
  have : ({ req with body := some ⟨data, false⟩ } : Request) = req := by
    rw [← hb]
  simp only [Bool.false_eq_true, if_false, this]

/-- The ways the hook ends.  The log lines of the free-tier block are not written on the
messages path, and those of the mapping block on no other path. -/
theorem Director_cases (lib : Stdlib) (st : Settings) (order : ModelMap) (req : Request) :
    (Director lib st order req = some ({ req with host := st.upstreamHost }, [])) ∨
    (∃ b : Body, req.body = some b ∧ b.readErr = true ∧
      Director lib st order req =
        some ({ req with host := st.upstreamHost, body := some ⟨b.data, false⟩ },
          [LogLine.readWarning req.rawQuery]) ∧
      freeSearchApplies st req = true) ∨
    (∃ b : Body, req.body = some b ∧ b.readErr = true ∧
      Director lib st order req =
        some ({ req with host := st.upstreamHost, body := some ⟨b.data, false⟩ },
          [LogLine.readWarningMessages])) ∨
    (∃ b : Body, req.body = some b ∧ b.readErr = false ∧
      freeSearchApplies st req = true ∧ isFreeTierRequestRegex.Match b.data = true ∧
      Director lib st order req =
        some ({ req with
            host := st.upstreamHost
            contentLength :=
              ((isFreeTierRequestRegex.ReplaceAll lib b.data freeTierReplacement).length : Int)
            header := req.header.Set "Content-Length"
              (toString
                (isFreeTierRequestRegex.ReplaceAll lib b.data freeTierReplacement).length)
            body :=
              some ⟨isFreeTierRequestRegex.ReplaceAll lib b.data freeTierReplacement, false⟩ },
          [LogLine.modifiedFreeTier req.rawQuery])) ∨
    (∃ (b : Body) (out f t : List Byte), req.body = some b ∧ b.readErr = false ∧
      req.path = anthropicMessagesPath ∧
      mappingLoop lib b.data order = LoopResult.applied out f t ∧
      Director lib st order req =
        some ({ req with
            host := st.upstreamHost
            contentLength := (out.length : Int)
            header := (req.header.Set "Content-Length" (toString out.length)).Set
              "X-Amp-Mode" "free"
            body := some ⟨out, false⟩ },
          [LogLine.mappedModel f t])) ∨
    (∃ b : Body, req.body = some b ∧ b.readErr = false ∧
      req.path = anthropicMessagesPath ∧ st.enableModelMapping = true ∧
      mappingLoop lib b.data order = LoopResult.panicked ∧
      Director lib st order req = none) := by
  by_cases hp : req.path = anthropicMessagesPath
  · have hne : req.path ≠ internalAPIPath := by
      rw [hp]; exact fun e => internal_ne_messages e.symm
    rw [Director_of_path_ne_internal lib st order req hne]
    rcases modelMappingStep_cases lib st order { req with host := st.upstreamHost } with
      e | ⟨b, hb, he, e⟩ | ⟨b, out, f, t, hb, he, _, hl, e⟩ | ⟨b, hb, he, _, hen, hl, e⟩
    · left; exact e
    · right; right; left; exact ⟨b, hb, he, e⟩
    · right; right; right; right; left; exact ⟨b, out, f, t, hb, he, hp, hl, e⟩
    · right; right; right; right; right; exact ⟨b, hb, he, hp, hen, hl, e⟩
  · rw [Director_of_path_ne_messages lib st order req hp]
    rcases freeSearchStep_cases lib st { req with host := st.upstreamHost } with
      e | ⟨b, hb, he, e⟩ | ⟨b, hb, he, ha, hm, e⟩
    · left; rw [e]
    · right; left
      refine ⟨b, hb, he, by rw [e], ?_⟩
      by_contra hna
      have hna2 : freeSearchApplies st { req with host := st.upstreamHost } = false := by
        cases h : freeSearchApplies st { req with host := st.upstreamHost } with
        | true => exact absurd h hna
        | false => rfl
      rw [freeSearchStep_of_not_applies _ _ _ hna2] at e
      simp at e
    · right; right; right; left; exact ⟨b, hb, he, ha, hm, by rw [e]⟩

/-- What the hook logs and returns when a rule is applied. -/
theorem Director_mapped (lib : Stdlib) (st : Settings) (order : ModelMap) (req : Request)
    (r : Request × List LogLine) (hr : Director lib st order req = some r) (f t : List Byte)
    (h : LogLine.mappedModel f t ∈ r.2) :
    ∃ b : Body, req.body = some b ∧ b.readErr = false ∧ req.path = anthropicMessagesPath ∧
      (f, t) ∈ order ∧ compiles lib f = true ∧ (modelPattern f).Match b.data = true ∧
      r =
        ({ req with
            host := st.upstreamHost
            contentLength :=
              (((modelPattern f).ReplaceAll lib b.data (modelReplacement t)).length : Int)
            header := (req.header.Set "Content-Length"
              (toString ((modelPattern f).ReplaceAll lib b.data
                (modelReplacement t)).length)).Set "X-Amp-Mode" "free"
            body := some ⟨(modelPattern f).ReplaceAll lib b.data (modelReplacement t), false⟩ },
          [LogLine.mappedModel f t]) := by
  rcases Director_cases lib st order req with
    e | ⟨b, hb, he, e, _⟩ | ⟨b, hb, he, e⟩ | ⟨b, hb, he, ha, hm, e⟩ |
    ⟨b, out, f1, t1, hb, he, hp, hl, e⟩ | ⟨b, hb, he, hp, hen, hl, e⟩
  · rw [e] at hr; cases hr; simp at h
  · rw [e] at hr; cases hr; simp at h
  · rw [e] at hr; cases hr; simp at h
  · rw [e] at hr; cases hr; simp at h
  · rw [e] at hr
    cases hr
    simp only [List.mem_singleton, LogLine.mappedModel.injEq] at h
    obtain ⟨hf, ht⟩ := h
    subst hf; subst ht
    obtain ⟨hmem, hc, hmatch, hout⟩ := mappingLoop_applied _ _ _ _ _ _ hl
    subst hout
    exact ⟨b, hb, he, hp, hmem, hc, hmatch, rfl⟩
  · rw [e] at hr; exact Option.noConfusion hr

/-! ## The order of the visit -/

theorem find?_perm_unique {α : Type} (p : α → Bool) (l1 l2 : List α) (hp : l1.Perm l2)
    (hu : ∀ x ∈ l1, ∀ y ∈ l1, p x = true → p y = true → x = y) :
    l1.find? p = l2.find? p := by
  cases h1 : l1.find? p with
  | none =>
    rw [List.find?_eq_none] at h1
    symm
    rw [List.find?_eq_none]
    intro x hx
    exact h1 x (hp.symm.subset hx)
  | some x =>
    have hx1 := List.mem_of_find?_eq_some h1
    have hx2 := List.find?_some h1
    cases h2 : l2.find? p with
    | none =>
      rw [List.find?_eq_none] at h2
      exact absurd hx2 (h2 x (hp.subset hx1))
    | some y =>
      have hy1 := hp.symm.subset (List.mem_of_find?_eq_some h2)
      have hy2 := List.find?_some h2
      rw [hu x hx1 y hy1 hx2 hy2]

theorem entry_eq_of_key_eq (m : ModelMap) (hn : (m.map Prod.fst).Nodup)
    (e1 e2 : List Byte × List Byte) (h1 : e1 ∈ m) (h2 : e2 ∈ m) (hk : e1.1 = e2.1) :
    e1 = e2 := by
  induction m with
  | nil => simp at h1
  | cons e tl ih =>
    have hn2 : (tl.map Prod.fst).Nodup := (List.nodup_cons.1 hn).2
    have hk2 : e.1 ∉ tl.map Prod.fst := (List.nodup_cons.1 hn).1
    rcases List.mem_cons.1 h1 with a1 | a1 <;> rcases List.mem_cons.1 h2 with a2 | a2
    · rw [a1, a2]
    · exfalso
      apply hk2
      rw [← a1, hk]
      exact List.mem_map.2 ⟨e2, a2, rfl⟩
    · exfalso
      apply hk2
      rw [← a2, ← hk]
      exact List.mem_map.2 ⟨e1, a1, rfl⟩
    · exact ih hn2 a1 a2

theorem modelMappingStep_congr (lib : Stdlib) (st : Settings) (order1 order2 : ModelMap)
    (req : Request)
    (h : ∀ b : Body, req.body = some b →
      mappingLoop lib b.data order1 = mappingLoop lib b.data order2) :
    modelMappingStep lib st order1 req = modelMappingStep lib st order2 req := by
  unfold modelMappingStep
  cases hb : req.body with
  | none => rfl
  | some b => simp only [h b hb]

/-- Two visits of the map in different orders end the same way when every source compiles
and at most one source of the map matches the body. -/
theorem Director_order_irrelevant (lib : Stdlib) (st : Settings) (order1 order2 : ModelMap)
    (req : Request)
    (h1 : order1.Perm (buildModelMap st.modelMappings))
    (h2 : order2.Perm (buildModelMap st.modelMappings))
    (hc : ∀ m ∈ st.modelMappings, compiles lib m.From = true)
    (hu : ∀ b : Body, req.body = some b →
      ∀ m1 ∈ st.modelMappings, ∀ m2 ∈ st.modelMappings,
        (modelPattern m1.From).Match b.data = true →
        (modelPattern m2.From).Match b.data = true → m1.From = m2.From) :
    Director lib st order1 req = Director lib st order2 req := by
  have hc1 : ∀ e ∈ order1, compiles lib e.1 = true := by
    intro e he
    obtain ⟨m, hm, hf, _⟩ := mem_buildModelMap_rule _ e.1 e.2 (h1.subset he)
    rw [← hf]; exact hc m hm
  have hc2 : ∀ e ∈ order2, compiles lib e.1 = true := by
    intro e he
    obtain ⟨m, hm, hf, _⟩ := mem_buildModelMap_rule _ e.1 e.2 (h2.subset he)
    rw [← hf]; exact hc m hm
  by_cases hp : req.path = anthropicMessagesPath
  · have hne : req.path ≠ internalAPIPath := by
      rw [hp]; exact fun e => internal_ne_messages e.symm
    rw [Director_of_path_ne_internal lib st order1 req hne,
      Director_of_path_ne_internal lib st order2 req hne]
    apply modelMappingStep_congr
    intro b hb
    rw [mappingLoop_of_compiles lib _ _ hc1, mappingLoop_of_compiles lib _ _ hc2]
    have hfind : order1.find? (fun e => (modelPattern e.1).Match b.data) =
        order2.find? (fun e => (modelPattern e.1).Match b.data) := by
      apply find?_perm_unique _ _ _ (h1.trans h2.symm)
      intro x hx y hy px py
      have hx1 := h1.subset hx
      have hy1 := h1.subset hy
      obtain ⟨m1, hm1, hf1, _⟩ := mem_buildModelMap_rule _ x.1 x.2 hx1
      obtain ⟨m2, hm2, hf2, _⟩ := mem_buildModelMap_rule _ y.1 y.2 hy1
      have hkey : x.1 = y.1 := by
        rw [← hf1, ← hf2]
        exact hu b hb m1 hm1 m2 hm2 (by rw [hf1]; exact px) (by rw [hf2]; exact py)
      exact entry_eq_of_key_eq _ (buildModelMap_nodup _) x y hx1 hy1 hkey
    rw [hfind]
  · rw [Director_of_path_ne_messages lib st order1 req hp,
      Director_of_path_ne_messages lib st order2 req hp]

/-- A source name that is plain and of at most a million bytes compiles. -/
theorem compiles_of_plain (lib : Stdlib) (f : List Byte) (hf : plain f)
    (hl : f.length ≤ 1000000) : compiles lib f = true := by
  have hr : (runes f).length ≤ f.length := by
    unfold runes
    rw [List.length_map]
    have : ∀ (n : Nat) (s : List Nat), (decodeLoop n s).length ≤ n := by
      intro n
      induction n with
      | zero => intro s; simp [decodeLoop]
      | succ n ih =>
        intro s
        cases s with
        | nil => simp [decodeLoop]
        | cons c tl =>
          simp only [decodeLoop, List.length_cons]
          exact Nat.succ_le_succ (ih _)
    exact this _ _
  have ht : tooLarge lib (runes f) = false := by
    unfold tooLarge
    have : ¬ 1000000 < (runes f).length := by omega
    simp [this]
  unfold compiles
  rw [checkUTF8_of_plain f hf, ht]
  rfl

/-- The hook has a result whenever every configured source name compiles. -/
theorem Director_isSome (lib : Stdlib) (st : Settings) (order : ModelMap) (req : Request)
    (hperm : order.Perm (buildModelMap st.modelMappings))
    (hc : ∀ m ∈ st.modelMappings, compiles lib m.From = true) :
    (Director lib st order req).isSome = true := by
  rcases Director_cases lib st order req with
    e | ⟨b, hb, he, e, _⟩ | ⟨b, hb, he, e⟩ | ⟨b, hb, he, ha, hm, e⟩ |
    ⟨b, out, f1, t1, hb, he, hp, hl, e⟩ | ⟨b, hb, he, hp, hen, hl, e⟩
  · rw [e]; rfl
  · rw [e]; rfl
  · rw [e]; rfl
  · rw [e]; rfl
  · rw [e]; rfl
  · exfalso
    obtain ⟨e1, he1, hce⟩ := mappingLoop_panicked lib _ _ hl
    obtain ⟨m, hm, hf, _⟩ := mem_buildModelMap_rule _ e1.1 e1.2 (hperm.subset he1)
    rw [← hf, hc m hm] at hce
    exact Bool.noConfusion hce

/-- The hook on the messages path, with the mapping enabled and a body it can read: what the
loop gives decides how the hook ends. -/
theorem Director_messages (lib : Stdlib) (st : Settings) (order : ModelMap) (req : Request)
    (data : List Byte) (hen : st.enableModelMapping = true)
    (hp : req.path = anthropicMessagesPath)
    (hlen : 0 < (buildModelMap st.modelMappings).length)
    (hb : req.body = some ⟨data, false⟩) :
    Director lib st order req =
      match mappingLoop lib data order with
      | LoopResult.panicked => none
      | LoopResult.applied modifiedBody fromModel toModel =>
        some ({ req with
            host := st.upstreamHost
            contentLength := (modifiedBody.length : Int)
            header := (req.header.Set "Content-Length" (toString modifiedBody.length)).Set
              "X-Amp-Mode" "free"
            body := some ⟨modifiedBody, false⟩ },
          [LogLine.mappedModel fromModel toModel])
      | LoopResult.unmatched => some ({ req with host := st.upstreamHost }, []) := by
  have hne : req.path ≠ internalAPIPath := by
    rw [hp]; exact fun e => internal_ne_messages e.symm
  rw [Director_of_path_ne_internal lib st order req hne,
    modelMappingStep_readable lib st order { req with host := st.upstreamHost } data hen hp
      hlen hb]


/-- The first block on a request it accepts whose readable body holds a match. -/
theorem freeSearchStep_matched (lib : Stdlib) (st : Settings) (req : Request)
    (data : List Byte)
    (ha : freeSearchApplies st req = true) (hb : req.body = some ⟨data, false⟩)
    (hm : isFreeTierRequestRegex.Match data = true) :
    freeSearchStep lib st req =
      ({ req with
          contentLength :=
            ((isFreeTierRequestRegex.ReplaceAll lib data freeTierReplacement).length : Int)
          header := req.header.Set "Content-Length"
            (toString (isFreeTierRequestRegex.ReplaceAll lib data freeTierReplacement).length)
          body := some ⟨isFreeTierRequestRegex.ReplaceAll lib data freeTierReplacement,
            false⟩ },
        [LogLine.modifiedFreeTier req.rawQuery]) := by
  unfold freeSearchStep
  rw [if_pos ha, hb]
  simp [hm]

/-- A source name that is not UTF-8 (here the single byte `FF`): `regexp.MustCompile` panics
as soon as the loop reaches the entry, whatever the body holds. -/
theorem Director_panics_on_invalid_source (lib : Stdlib) :
    Director lib ⟨true, true, [⟨[255], ascii "x"⟩], "ampcode.com"⟩ [([255], ascii "x")]
      ⟨"localhost:8318", "/api/provider/anthropic/v1/messages", "",
        some ⟨ascii "\x7b\"model\":\"z\"\x7d", false⟩, 13, []⟩ = none := by
  have hl : mappingLoop lib (ascii "\x7b\"model\":\"z\"\x7d") [([255], ascii "x")]
      = LoopResult.panicked := rfl
  rw [Director_messages lib _ _ _ (ascii "\x7b\"model\":\"z\"\x7d") rfl rfl (by decide) rfl, hl]

/-- With a source that does not compile next to one that matches, the order of the visit
decides between a rewritten body and a panic, although only one pattern matches the body. -/
theorem Director_panic_depends_on_order (lib : Stdlib) :
    (Director lib ⟨true, true, [⟨[255], ascii "x"⟩, ⟨ascii "a", ascii "y"⟩], "ampcode.com"⟩
        [(ascii "a", ascii "y"), ([255], ascii "x")]
        ⟨"localhost:8318", "/api/provider/anthropic/v1/messages", "",
          some ⟨ascii "\x7b\"model\":\"a\"\x7d", false⟩, 13, []⟩).map (fun r => r.1.body)
      = some (some ⟨ascii "\x7b\"model\":\"y\"\x7d", false⟩) ∧
    Director lib ⟨true, true, [⟨[255], ascii "x"⟩, ⟨ascii "a", ascii "y"⟩], "ampcode.com"⟩
        [([255], ascii "x"), (ascii "a", ascii "y")]
        ⟨"localhost:8318", "/api/provider/anthropic/v1/messages", "",
          some ⟨ascii "\x7b\"model\":\"a\"\x7d", false⟩, 13, []⟩ = none ∧
    (modelPattern [255]).Match (ascii "\x7b\"model\":\"a\"\x7d") = false := by
  have hl1 : mappingLoop lib (ascii "\x7b\"model\":\"a\"\x7d")
      [(ascii "a", ascii "y"), ([255], ascii "x")]
      = LoopResult.applied (ascii "\x7b\"model\":\"y\"\x7d") (ascii "a") (ascii "y") := rfl
  have hl2 : mappingLoop lib (ascii "\x7b\"model\":\"a\"\x7d")
      [([255], ascii "x"), (ascii "a", ascii "y")] = LoopResult.panicked := rfl
  refine ⟨?_, ?_, by decide⟩
  · rw [Director_messages lib _ _ _ (ascii "\x7b\"model\":\"a\"\x7d") rfl rfl (by decide) rfl,
      hl1]
    decide
  · rw [Director_messages lib _ _ _ (ascii "\x7b\"model\":\"a\"\x7d") rfl rfl (by decide) rfl,
      hl2]
/-! ## The claims -/

/-- C1: on a request the hook classifies as free-tier (free search enabled, path
`/api/internal`, query `webSearch2` or `extractWebPageContent`, a body that can be read) the
hook returns and the forwarded body is the original body with every leftmost non-overlapping
match of `"isFreeTierRequest"\s*:\s*false` replaced by `"isFreeTierRequest":true` and every
other byte kept in order, and it is the only text of that description; a body without a
match is forwarded as it is; the two bodies of the specification are rewritten as it says. -/
theorem C1_free_tier_rewrite (lib : Stdlib) (st : Settings) (order : ModelMap)
    (req : Request) (data : List Byte) (hen : st.enableFreeSearch = true)
    (hpath : req.path = "/api/internal")
    (hq : req.rawQuery = "webSearch2" ∨ req.rawQuery = "extractWebPageContent")
    (hbody : req.body = some ⟨data, false⟩) :
    (Director lib st order req).map (fun r => r.1.body)
        = some (some ⟨freeTierRewrite lib data, false⟩) ∧
      isFreeTierRequestRegex.Replaced (fun _ => freeTierReplacement) data
        (freeTierRewrite lib data) ∧
      (∀ out : List Byte,
        isFreeTierRequestRegex.Replaced (fun _ => freeTierReplacement) data out →
        out = freeTierRewrite lib data) ∧
      (isFreeTierRequestRegex.Free data → freeTierRewrite lib data = data) ∧
      freeTierRewrite lib (ascii "\x7b\"isFreeTierRequest\":false,\"q\":\"x\"\x7d")
        = ascii "\x7b\"isFreeTierRequest\":true,\"q\":\"x\"\x7d" ∧
      freeTierRewrite lib (ascii "\x7b\"isFreeTierRequest\":true\x7d")
        = ascii "\x7b\"isFreeTierRequest\":true\x7d" := by
  refine ⟨?_, freeTierRewrite_replaced lib data, ?_, freeTierRewrite_of_free lib data, rfl,
    rfl⟩
  · have hne : req.path ≠ anthropicMessagesPath := by rw [hpath]; decide
    rw [Director_of_path_ne_messages lib st order req hne]
    simp only [Option.map_some']
    exact congrArg some (freeSearchStep_readable lib st { req with host := st.upstreamHost }
      data ((freeSearchApplies_iff st _).2 ⟨hen, hpath, hq⟩) hbody)
  · intro out hout
    exact Replaced_unique isFreeTierRequestRegex freeTier_plain_key freeTier_plain_value _ 102
      _ freeTier_value (by decide) data out _ hout (freeTierRewrite_replaced lib data)

theorem C1_free_tier_rewrite_witness :
    (Director ⟨fun _ => false, fun _ => false, fun _ => false⟩ ⟨true, true, [], "ampcode.com"⟩ []
        ⟨"localhost:8318", "/api/internal", "webSearch2",
          some ⟨ascii "\x7b\"isFreeTierRequest\" : false,\"q\":\"x\"\x7d", false⟩, 37,
          []⟩).map (fun r => r.1.body)
      = some (some ⟨ascii "\x7b\"isFreeTierRequest\":true,\"q\":\"x\"\x7d", false⟩) :=
  (C1_free_tier_rewrite ⟨fun _ => false, fun _ => false, fun _ => false⟩
      ⟨true, true, [], "ampcode.com"⟩ []
    ⟨"localhost:8318", "/api/internal", "webSearch2",
      some ⟨ascii "\x7b\"isFreeTierRequest\" : false,\"q\":\"x\"\x7d", false⟩, 37, []⟩
    (ascii "\x7b\"isFreeTierRequest\" : false,\"q\":\"x\"\x7d") rfl rfl (Or.inl rfl) rfl).1.trans
    rfl

/-- C2: whenever the hook returns and has changed the body (the free-tier rewrite or a model
mapping fired, or the bytes that leave differ from those that came), the request leaves with
a body whose byte count is both `ContentLength` and the decimal `Content-Length` header. -/
theorem C2_content_length_exact (lib : Stdlib) (st : Settings) (order : ModelMap)
    (req : Request) (r : Request × List LogLine) (hr : Director lib st order req = some r)
    (h : (∃ q, LogLine.modifiedFreeTier q ∈ r.2) ∨
      (∃ f t, LogLine.mappedModel f t ∈ r.2) ∨
      r.1.body.map Body.data ≠ req.body.map Body.data) :
    ∃ newBody : List Byte,
      r.1.body = some ⟨newBody, false⟩ ∧
      r.1.contentLength = (newBody.length : Int) ∧
      r.1.header.values "Content-Length" = some [toString newBody.length] := by
  rcases Director_cases lib st order req with
    e | ⟨b, hb, he, e, _⟩ | ⟨b, hb, he, e⟩ | ⟨b, hb, he, ha, hm, e⟩ |
    ⟨b, out, f, t, hb, he, hp, hl, e⟩ | ⟨b, hb, he, hp, hen, hl, e⟩
  · rw [e] at hr; cases hr; simp at h
  · rw [e] at hr; cases hr; simp [hb] at h
  · rw [e] at hr; cases hr; simp [hb] at h
  · rw [e] at hr; cases hr
    exact ⟨_, rfl, rfl, Header.values_Set_self _ _ _⟩
  · rw [e] at hr; cases hr
    refine ⟨out, rfl, rfl, ?_⟩
    simp only
    rw [Header.values_Set_ne _ _ _ _ (by decide), Header.values_Set_self]
  · rw [e] at hr; exact Option.noConfusion hr

theorem C2_content_length_exact_witness :
    ∃ (r : Request × List LogLine) (newBody : List Byte),
      Director ⟨fun _ => false, fun _ => false, fun _ => false⟩ ⟨true, true, [], "ampcode.com"⟩ []
        ⟨"localhost:8318", "/api/internal", "webSearch2",
          some ⟨ascii "\x7b\"isFreeTierRequest\": false\x7d", false⟩, 28,
          [("Content-Length", ["28"])]⟩ = some r ∧
      r.1.body = some ⟨newBody, false⟩ ∧
      r.1.contentLength = (newBody.length : Int) ∧
      r.1.header.values "Content-Length" = some [toString newBody.length] := by
  have hx : isFreeTierRequestRegex.ReplaceAll ⟨fun _ => false, fun _ => false, fun _ => false⟩
      (ascii "\x7b\"isFreeTierRequest\": false\x7d") freeTierReplacement
      = ascii "\x7b\"isFreeTierRequest\":true\x7d" := rfl
  have hr : Director ⟨fun _ => false, fun _ => false, fun _ => false⟩ ⟨true, true, [], "ampcode.com"⟩ []
      ⟨"localhost:8318", "/api/internal", "webSearch2",
        some ⟨ascii "\x7b\"isFreeTierRequest\": false\x7d", false⟩, 28,
        [("Content-Length", ["28"])]⟩
      = some (⟨"ampcode.com", "/api/internal", "webSearch2",
          some ⟨ascii "\x7b\"isFreeTierRequest\":true\x7d", false⟩, 26,
          [("Content-Length", ["26"])]⟩, [LogLine.modifiedFreeTier "webSearch2"]) := by
    rw [Director_of_path_ne_messages ⟨fun _ => false, fun _ => false, fun _ => false⟩ _ _ _ (by decide),
      freeSearchStep_matched ⟨fun _ => false, fun _ => false, fun _ => false⟩ _ _ (ascii "\x7b\"isFreeTierRequest\": false\x7d")
        (by decide) rfl (by decide), hx]
    decide
  obtain ⟨newBody, h⟩ := C2_content_length_exact ⟨fun _ => false, fun _ => false, fun _ => false⟩ _ _ _ _ hr
    (Or.inl ⟨"webSearch2", by decide⟩)
  exact ⟨_, newBody, hr, h⟩

/-- C3: on the messages path, whenever the hook returns, the forwarded body is the original
body or the result of one `ReplaceAll` on the original body, for a configured rule whose
pattern matches the original body; no second rule is applied to the result.  The hook
returns whenever every configured source compiles.  With the rules a->b and b->c and the
body `{"model":"a","x":1}` every order of the visit forwards `{"model":"b","x":1}` and sets
`X-Amp-Mode: free`. -/
theorem C3_single_pass (lib : Stdlib) (st : Settings) (order : ModelMap) (req : Request)
    (hperm : order.Perm (buildModelMap st.modelMappings))
    (hpath : req.path = "/api/provider/anthropic/v1/messages") :
    (∀ r : Request × List LogLine, Director lib st order req = some r →
      (r.1.body.map Body.data = req.body.map Body.data ∨
        ∃ (b : Body) (m : ModelMapping), req.body = some b ∧ m ∈ st.modelMappings ∧
          (modelPattern m.From).Match b.data = true ∧
          r.1.body =
            some ⟨(modelPattern m.From).ReplaceAll lib b.data (modelReplacement m.To),
              false⟩ ∧
          r.2 = [LogLine.mappedModel m.From m.To])) ∧
    ((∀ m ∈ st.modelMappings, compiles lib m.From = true) →
      (Director lib st order req).isSome = true) ∧
    (∀ order1 : ModelMap,
      order1.Perm (buildModelMap [⟨ascii "a", ascii "b"⟩, ⟨ascii "b", ascii "c"⟩]) →
      (Director lib
        ⟨true, true, [⟨ascii "a", ascii "b"⟩, ⟨ascii "b", ascii "c"⟩], "ampcode.com"⟩
        order1
        ⟨"localhost:8318", "/api/provider/anthropic/v1/messages", "",
          some ⟨ascii "\x7b\"model\":\"a\",\"x\":1\x7d", false⟩, 19, []⟩).map
          (fun r => (r.1.body, r.1.header.values "X-Amp-Mode"))
        = some (some ⟨ascii "\x7b\"model\":\"b\",\"x\":1\x7d", false⟩, some ["free"])) := by
  refine ⟨?_, Director_isSome lib st order req hperm, ?_⟩
  · intro r hr
    rcases Director_cases lib st order req with
      e | ⟨b, hb, he, e, _⟩ | ⟨b, hb, he, e⟩ | ⟨b, hb, he, ha, hm, e⟩ |
      ⟨b, out, f, t, hb, he, hp, hl, e⟩ | ⟨b, hb, he, hp, hen, hl, e⟩
    · rw [e] at hr; cases hr; left; rfl
    · rw [e] at hr; cases hr; left; simp [hb]
    · rw [e] at hr; cases hr; left; simp [hb]
    · exfalso
      have h1 := ((freeSearchApplies_iff st req).1 ha).2.1
      rw [hpath] at h1
      exact absurd h1 (by decide)
    · rw [e] at hr; cases hr
      right
      obtain ⟨hmem, _, hmatch, hout⟩ := mappingLoop_applied _ _ _ _ _ _ hl
      obtain ⟨m, hm, hf, ht⟩ := mem_buildModelMap_rule _ f t (hperm.subset hmem)
      subst hf; subst ht; subst hout
      exact ⟨b, m, hb, hm, hmatch, rfl, rfl⟩
    · rw [e] at hr; exact Option.noConfusion hr
  · intro order1 hp1
    have hc : ∀ m ∈ [(⟨ascii "a", ascii "b"⟩ : ModelMapping), ⟨ascii "b", ascii "c"⟩],
        compiles lib m.From = true := by
      intro m hm
      simp only [List.mem_cons, List.mem_singleton, List.not_mem_nil, or_false] at hm
      rcases hm with rfl | rfl <;> rfl
    have hu : ∀ b : Body,
        (⟨"localhost:8318", "/api/provider/anthropic/v1/messages", "",
          some ⟨ascii "\x7b\"model\":\"a\",\"x\":1\x7d", false⟩, 19, []⟩ : Request).body = some b →
        ∀ m1 ∈ [(⟨ascii "a", ascii "b"⟩ : ModelMapping), ⟨ascii "b", ascii "c"⟩],
        ∀ m2 ∈ [(⟨ascii "a", ascii "b"⟩ : ModelMapping), ⟨ascii "b", ascii "c"⟩],
          (modelPattern m1.From).Match b.data = true →
          (modelPattern m2.From).Match b.data = true → m1.From = m2.From := by
      intro b hb
      simp only [Option.some.injEq] at hb
      subst hb
      decide
    have hl : mappingLoop lib (ascii "\x7b\"model\":\"a\",\"x\":1\x7d")
        (buildModelMap [⟨ascii "a", ascii "b"⟩, ⟨ascii "b", ascii "c"⟩])
        = LoopResult.applied (ascii "\x7b\"model\":\"b\",\"x\":1\x7d") (ascii "a")
          (ascii "b") := rfl
    rw [Director_order_irrelevant lib
      ⟨true, true, [⟨ascii "a", ascii "b"⟩, ⟨ascii "b", ascii "c"⟩], "ampcode.com"⟩ order1
      (buildModelMap [⟨ascii "a", ascii "b"⟩, ⟨ascii "b", ascii "c"⟩]) _ hp1
      (List.Perm.refl _) hc hu,
      Director_messages lib _ _ _ (ascii "\x7b\"model\":\"a\",\"x\":1\x7d") rfl rfl
        (by decide) rfl, hl]
    decide

theorem C3_single_pass_witness :
    (Director ⟨fun _ => false, fun _ => false, fun _ => false⟩
        ⟨true, true, [⟨ascii "a", ascii "b"⟩, ⟨ascii "b", ascii "c"⟩], "ampcode.com"⟩
        [(ascii "b", ascii "c"), (ascii "a", ascii "b")]
        ⟨"localhost:8318", "/api/provider/anthropic/v1/messages", "",
          some ⟨ascii "\x7b\"model\":\"a\",\"x\":1\x7d", false⟩, 19, []⟩).map
          (fun r => (r.1.body, r.1.header.values "X-Amp-Mode"))
      = some (some ⟨ascii "\x7b\"model\":\"b\",\"x\":1\x7d", false⟩, some ["free"]) :=
  (C3_single_pass ⟨fun _ => false, fun _ => false, fun _ => false⟩
      ⟨true, true, [⟨ascii "a", ascii "b"⟩, ⟨ascii "b", ascii "c"⟩], "ampcode.com"⟩
      [(ascii "b", ascii "c"), (ascii "a", ascii "b")]
      ⟨"localhost:8318", "/api/provider/anthropic/v1/messages", "",
        some ⟨ascii "\x7b\"model\":\"a\",\"x\":1\x7d", false⟩, 19, []⟩
      (by decide) rfl).2.2 [(ascii "b", ascii "c"), (ascii "a", ascii "b")] (by decide)

/-- C4 (evaluation at the failing input): with the rule a -> b$1 and the body
`{"model":"a"}` the hook forwards `{"model":"b"}`: the target name is run through the
template expansion of `ReplaceAll`, which takes `$1` for a group reference. -/
theorem C4_dollar_target_expanded :
    ∀ lib : Stdlib,
    (Director lib ⟨true, true, [⟨ascii "a", ascii "b$1"⟩], "ampcode.com"⟩
        [(ascii "a", ascii "b$1")]
        ⟨"localhost:8318", "/api/provider/anthropic/v1/messages", "",
          some ⟨ascii "\x7b\"model\":\"a\"\x7d", false⟩, 13, []⟩).map (fun r => r.1.body)
      = some (some ⟨ascii "\x7b\"model\":\"b\"\x7d", false⟩) ∧
    (Director lib ⟨true, true, [⟨ascii "a", ascii "b$1"⟩], "ampcode.com"⟩
        [(ascii "a", ascii "b$1")]
        ⟨"localhost:8318", "/api/provider/anthropic/v1/messages", "",
          some ⟨ascii "\x7b\"model\":\"a\"\x7d", false⟩, 13, []⟩).map (fun r => r.1.body)
      ≠ some (some ⟨ascii "\x7b\"model\":\"b$1\"\x7d", false⟩) := by
  intro lib
  have hl : mappingLoop lib (ascii "\x7b\"model\":\"a\"\x7d") [(ascii "a", ascii "b$1")]
      = LoopResult.applied (ascii "\x7b\"model\":\"b\"\x7d") (ascii "a") (ascii "b$1") := rfl
  rw [Director_messages lib _ _ _ (ascii "\x7b\"model\":\"a\"\x7d") rfl rfl (by decide) rfl,
    hl]
  constructor <;> decide

/-- C5 (counterexample): with the rule a -> b and the body `{"model":"a","model":"a"}` the
hook forwards `{"model":"b","model":"b"}`, whatever the Unicode tables; the second
occurrence is not kept. -/
theorem C5_counterexample :
    (∀ lib : Stdlib,
      (Director lib ⟨true, true, [⟨ascii "a", ascii "b"⟩], "ampcode.com"⟩
          [(ascii "a", ascii "b")]
          ⟨"localhost:8318", "/api/provider/anthropic/v1/messages", "",
            some ⟨ascii "\x7b\"model\":\"a\",\"model\":\"a\"\x7d", false⟩, 25,
            []⟩).map (fun r => r.1.body)
        = some (some ⟨ascii "\x7b\"model\":\"b\",\"model\":\"b\"\x7d", false⟩)) ∧
    ascii "\x7b\"model\":\"b\",\"model\":\"b\"\x7d"
      ≠ ascii "\x7b\"model\":\"b\",\"model\":\"a\"\x7d" := by
  refine ⟨?_, by decide⟩
  intro lib
  have hl : mappingLoop lib (ascii "\x7b\"model\":\"a\",\"model\":\"a\"\x7d")
      [(ascii "a", ascii "b")]
      = LoopResult.applied (ascii "\x7b\"model\":\"b\",\"model\":\"b\"\x7d") (ascii "a")
        (ascii "b") := rfl
  rw [Director_messages lib _ _ _ (ascii "\x7b\"model\":\"a\",\"model\":\"a\"\x7d") rfl rfl
    (by decide) rfl, hl]
  decide

/-- C5 (amended): when a rule `f -> t` is applied, with a source that is UTF-8 text without
U+FFFD and a target free of `$`, the forwarded body is the original body with every leftmost
non-overlapping match of `"model"\s*:\s*"f"` replaced by `"model":"t"` and every other byte
kept in order. -/
theorem C5_every_occurrence_rewritten (lib : Stdlib) (st : Settings) (order : ModelMap)
    (req : Request) (r : Request × List LogLine) (hr : Director lib st order req = some r)
    (f t : List Byte) (hlog : LogLine.mappedModel f t ∈ r.2)
    (hf : plain f) (hd : (36 : Byte) ∉ t) :
    ∃ data out : List Byte, req.body = some ⟨data, false⟩ ∧
      r.1.body = some ⟨out, false⟩ ∧
      (modelPattern f).Replaced (fun _ => modelReplacement t) data out := by
  obtain ⟨b, hb, he, _, _, _, _, e⟩ := Director_mapped lib st order req r hr f t hlog
  obtain ⟨data, err⟩ := b
  simp only at he
  subst he
  refine ⟨data, _, hb, by rw [e], ?_⟩
  have hd2 : (36 : Byte) ∉ modelReplacement t := by
    unfold modelReplacement
    simp only [List.mem_append, not_or]
    exact ⟨⟨by decide, hd⟩, by decide⟩
  have hfun : expand lib (modelReplacement t) = fun _ => modelReplacement t :=
    funext (fun m => expand_of_no_dollar lib _ m hd2)
  unfold Regexp.ReplaceAll
  rw [hfun]
  exact replaceAllLoop_replaced (modelPattern f) (plain_modelKey f) (plain_modelValue f hf) _
    34 (f ++ [34]) (by simp [modelPattern]) (by decide) _ data (Nat.lt_succ_self _)

theorem C5_every_occurrence_rewritten_witness :
    ∃ (r : Request × List LogLine) (data out : List Byte),
      Director ⟨fun _ => false, fun _ => false, fun _ => false⟩ ⟨true, true, [⟨ascii "a", ascii "b"⟩], "ampcode.com"⟩
        [(ascii "a", ascii "b")]
        ⟨"localhost:8318", "/api/provider/anthropic/v1/messages", "",
          some ⟨ascii "\x7b\"model\":\"a\",\"model\":\"a\"\x7d", false⟩, 25, []⟩ = some r ∧
      data = ascii "\x7b\"model\":\"a\",\"model\":\"a\"\x7d" ∧
      r.1.body = some ⟨out, false⟩ ∧
      (modelPattern (ascii "a")).Replaced (fun _ => modelReplacement (ascii "b")) data
        out := by
  have hl : mappingLoop ⟨fun _ => false, fun _ => false, fun _ => false⟩ (ascii "\x7b\"model\":\"a\",\"model\":\"a\"\x7d")
      [(ascii "a", ascii "b")]
      = LoopResult.applied (ascii "\x7b\"model\":\"b\",\"model\":\"b\"\x7d") (ascii "a")
        (ascii "b") := rfl
  have hr : Director ⟨fun _ => false, fun _ => false, fun _ => false⟩ ⟨true, true, [⟨ascii "a", ascii "b"⟩], "ampcode.com"⟩
      [(ascii "a", ascii "b")]
      ⟨"localhost:8318", "/api/provider/anthropic/v1/messages", "",
        some ⟨ascii "\x7b\"model\":\"a\",\"model\":\"a\"\x7d", false⟩, 25, []⟩
      = some (⟨"ampcode.com", "/api/provider/anthropic/v1/messages", "",
          some ⟨ascii "\x7b\"model\":\"b\",\"model\":\"b\"\x7d", false⟩, 25,
          [("X-Amp-Mode", ["free"]), ("Content-Length", ["25"])]⟩,
          [LogLine.mappedModel (ascii "a") (ascii "b")]) := by
    rw [Director_messages ⟨fun _ => false, fun _ => false, fun _ => false⟩ _ _ _ (ascii "\x7b\"model\":\"a\",\"model\":\"a\"\x7d") rfl
      rfl (by decide) rfl, hl]
    decide
  obtain ⟨data, out, h1, h2, h3⟩ := C5_every_occurrence_rewritten ⟨fun _ => false, fun _ => false, fun _ => false⟩ _ _ _ _ hr (ascii "a")
    (ascii "b") (by decide) (by unfold plain; decide) (by decide)
  simp only [Option.some.injEq, Body.mk.injEq, and_true] at h1
  exact ⟨_, data, out, hr, h1.symm, h2, h3⟩

/-- C6 (counterexample): from the rules a -> b, a -> c the map keeps only a -> c, and the
body `{"model":"a"}` is forwarded as `{"model":"c"}`, whatever the Unicode tables, not as
`{"model":"b"}`, the body the first rule would give. -/
theorem C6_counterexample :
    buildModelMap [⟨ascii "a", ascii "b"⟩, ⟨ascii "a", ascii "c"⟩] = [(ascii "a", ascii "c")] ∧
    (∀ lib : Stdlib,
      (Director lib
          ⟨true, true, [⟨ascii "a", ascii "b"⟩, ⟨ascii "a", ascii "c"⟩], "ampcode.com"⟩
          [(ascii "a", ascii "c")]
          ⟨"localhost:8318", "/api/provider/anthropic/v1/messages", "",
            some ⟨ascii "\x7b\"model\":\"a\"\x7d", false⟩, 13, []⟩).map (fun r => r.1.body)
        = some (some ⟨ascii "\x7b\"model\":\"c\"\x7d", false⟩)) ∧
    ascii "\x7b\"model\":\"c\"\x7d" ≠ ascii "\x7b\"model\":\"b\"\x7d" := by
  refine ⟨by decide, ?_, by decide⟩
  intro lib
  have hl : mappingLoop lib (ascii "\x7b\"model\":\"a\"\x7d") [(ascii "a", ascii "c")]
      = LoopResult.applied (ascii "\x7b\"model\":\"c\"\x7d") (ascii "a") (ascii "c") := rfl
  rw [Director_messages lib _ _ _ (ascii "\x7b\"model\":\"a\"\x7d") rfl rfl (by decide) rfl,
    hl]
  decide

/-- C6 (amended): among rules with the same source the one registered last wins: when the
hook applies `f -> t`, then `t` is the target of the latest configured rule with source
`f`. -/
theorem C6_latest_rule_wins (lib : Stdlib) (st : Settings) (order : ModelMap) (req : Request)
    (r : Request × List LogLine) (hr : Director lib st order req = some r)
    (f t : List Byte) (hperm : order.Perm (buildModelMap st.modelMappings))
    (hlog : LogLine.mappedModel f t ∈ r.2) :
    (st.modelMappings.reverse.find? (fun m => decide (m.From = f))).map ModelMapping.To
      = some t := by
  obtain ⟨_, _, _, _, hmem, _, _, _⟩ := Director_mapped lib st order req r hr f t hlog
  exact (mem_buildModelMap st.modelMappings f t).1 (hperm.subset hmem)

theorem C6_latest_rule_wins_witness :
    (([⟨ascii "a", ascii "b"⟩, ⟨ascii "a", ascii "c"⟩] : List ModelMapping).reverse.find?
      (fun m => decide (m.From = ascii "a"))).map ModelMapping.To = some (ascii "c") :=
  C6_latest_rule_wins ⟨fun _ => false, fun _ => false, fun _ => false⟩
    ⟨true, true, [⟨ascii "a", ascii "b"⟩, ⟨ascii "a", ascii "c"⟩], "ampcode.com"⟩
    [(ascii "a", ascii "c")]
    ⟨"localhost:8318", "/api/provider/anthropic/v1/messages", "",
      some ⟨ascii "\x7b\"model\":\"a\"\x7d", false⟩, 13, []⟩
    (⟨"ampcode.com", "/api/provider/anthropic/v1/messages", "",
      some ⟨ascii "\x7b\"model\":\"c\"\x7d", false⟩, 13,
      [("X-Amp-Mode", ["free"]), ("Content-Length", ["13"])]⟩,
      [LogLine.mappedModel (ascii "a") (ascii "c")])
    ((Director_messages ⟨fun _ => false, fun _ => false, fun _ => false⟩
        _ _ _ (ascii "\x7b\"model\":\"a\"\x7d") rfl rfl (by decide)
      rfl).trans
      (by
        have hl : mappingLoop ⟨fun _ => false, fun _ => false, fun _ => false⟩
            (ascii "\x7b\"model\":\"a\"\x7d") [(ascii "a", ascii "c")]
            = LoopResult.applied (ascii "\x7b\"model\":\"c\"\x7d") (ascii "a")
              (ascii "c") := rfl
        rw [hl]
        decide))
    (ascii "a") (ascii "c") (by decide) (by decide)

/-- C7 (counterexample): the configured source is the three bytes `EF BF BD` (the UTF-8 of
U+FFFD) with target `e`, and the body is `{"model":"?"}` where `?` is the single byte `FF`.
No `model` field of the body has the source as its value (the byte `EF` is nowhere in the
body), yet, whatever the Unicode tables, the hook applies the rule: it forwards
`{"model":"e"}` and sets `X-Amp-Mode: free`. -/
theorem C7_counterexample :
    (modelPattern [239, 191, 189]).Free
      (ascii "\x7b\"model\":\"" ++ [255] ++ ascii "\"\x7d") ∧
    (∀ lib : Stdlib,
      (Director lib ⟨true, true, [⟨[239, 191, 189], ascii "e"⟩], "ampcode.com"⟩
          [([239, 191, 189], ascii "e")]
          ⟨"localhost:8318", "/api/provider/anthropic/v1/messages", "",
            some ⟨ascii "\x7b\"model\":\"" ++ [255] ++ ascii "\"\x7d", false⟩, 13, []⟩).map
          (fun r => (r.1.body, r.1.header.values "X-Amp-Mode", r.2))
        = some (some ⟨ascii "\x7b\"model\":\"e\"\x7d", false⟩, some ["free"],
            [LogLine.mappedModel [239, 191, 189] (ascii "e")])) ∧
    ascii "\x7b\"model\":\"e\"\x7d" ≠ ascii "\x7b\"model\":\"" ++ [255] ++ ascii "\"\x7d" := by
  refine ⟨?_, ?_, by decide⟩
  · rintro t ht ⟨m, rest, ⟨ws1, ws2, _, _, hm⟩, hs⟩
    have h1 : (239 : Byte) ∈ m := by
      rw [hm]
      simp [modelPattern]
    have h2 : (239 : Byte) ∈ t := by
      rw [hs]
      exact List.mem_append_left _ h1
    have h3 : (239 : Byte) ∈ ascii "\x7b\"model\":\"" ++ [255] ++ ascii "\"\x7d" := ht.subset h2
    revert h3
    decide
  · intro lib
    have hl : mappingLoop lib (ascii "\x7b\"model\":\"" ++ [255] ++ ascii "\"\x7d")
        [([239, 191, 189], ascii "e")]
        = LoopResult.applied (ascii "\x7b\"model\":\"e\"\x7d") [239, 191, 189]
          (ascii "e") := rfl
    rw [Director_messages lib _ _ _ (ascii "\x7b\"model\":\"" ++ [255] ++ ascii "\"\x7d") rfl
      rfl (by decide) rfl, hl]
    decide

/-- C7 (amended): on the messages path, when every configured source is UTF-8 text without
U+FFFD that the regexp parser accepts and the body holds no `model` field whose value is a
configured source, the hook returns, forwards the same bytes, leaves `ContentLength` and all
headers as they came and applies no rule; whenever the hook returns it has set
`X-Amp-Mode: free` when it applied a rule and left `X-Amp-Mode` as it came when it applied
none; and (with such sources, the mapping enabled, on the messages path, for a body it can
read) the hook applies a rule exactly when the body holds a `model` field whose value is a
configured source. -/
theorem C7_no_match_no_effect (lib : Stdlib) (st : Settings) (order : ModelMap)
    (req : Request) :
    (order.Perm (buildModelMap st.modelMappings) →
      req.path = "/api/provider/anthropic/v1/messages" →
      (∀ m ∈ st.modelMappings, plain m.From ∧ compiles lib m.From = true) →
      (∀ b : Body, req.body = some b →
        ∀ m ∈ st.modelMappings, (modelPattern m.From).Free b.data) →
      ∃ r : Request × List LogLine, Director lib st order req = some r ∧
        r.1.body.map Body.data = req.body.map Body.data ∧
        r.1.contentLength = req.contentLength ∧
        r.1.header = req.header ∧
        ∀ f t : List Byte, LogLine.mappedModel f t ∉ r.2) ∧
    (∀ r : Request × List LogLine, Director lib st order req = some r →
      (∃ f t, LogLine.mappedModel f t ∈ r.2) →
      r.1.header.values "X-Amp-Mode" = some ["free"]) ∧
    (∀ r : Request × List LogLine, Director lib st order req = some r →
      (¬ ∃ f t, LogLine.mappedModel f t ∈ r.2) →
      r.1.header.values "X-Amp-Mode" = req.header.values "X-Amp-Mode") ∧
    (order.Perm (buildModelMap st.modelMappings) →
      st.enableModelMapping = true →
      req.path = "/api/provider/anthropic/v1/messages" →
      (∀ m ∈ st.modelMappings, plain m.From ∧ compiles lib m.From = true) →
      ∀ data : List Byte, req.body = some ⟨data, false⟩ →
      ((∃ (r : Request × List LogLine) (f t : List Byte),
          Director lib st order req = some r ∧ LogLine.mappedModel f t ∈ r.2) ↔
        ∃ m ∈ st.modelMappings, ¬ (modelPattern m.From).Free data)) := by
  refine ⟨?_, ?_, ?_, ?_⟩
  · intro hperm hpath hsrc hno
    rcases Director_cases lib st order req with
      e | ⟨b, hb, he, e, _⟩ | ⟨b, hb, he, e⟩ | ⟨b, hb, he, ha, hm, e⟩ |
      ⟨b, out, f, t, hb, he, hp, hl, e⟩ | ⟨b, hb, he, hp, hen, hl, e⟩
    · exact ⟨_, e, by simp⟩
    · exact ⟨_, e, by simp [hb]⟩
    · exact ⟨_, e, by simp [hb]⟩
    · exfalso
      have h1 := ((freeSearchApplies_iff st req).1 ha).2.1
      rw [hpath] at h1
      exact absurd h1 (by decide)
    · exfalso
      obtain ⟨hmem, _, hmatch, _⟩ := mappingLoop_applied _ _ _ _ _ _ hl
      obtain ⟨m, hm, hf, _⟩ := mem_buildModelMap_rule _ f t (hperm.subset hmem)
      have hfree := hno b hb m hm
      have hpl := (hsrc m hm).1
      rw [hf] at hfree hpl
      rw [(modelPattern_Match_false_iff f b.data hpl).2 hfree] at hmatch
      exact Bool.noConfusion hmatch
    · exfalso
      obtain ⟨e1, he1, hc1⟩ := mappingLoop_panicked _ _ _ hl
      obtain ⟨m, hm, hf, _⟩ := mem_buildModelMap_rule _ e1.1 e1.2 (hperm.subset he1)
      have hcm := (hsrc m hm).2
      rw [hf, hc1] at hcm
      exact Bool.noConfusion hcm
  · rintro r hr ⟨f, t, h⟩
    obtain ⟨b, _, _, _, _, _, _, e⟩ := Director_mapped lib st order req r hr f t h
    rw [e]
    exact Header.values_Set_self _ _ _
  · intro r hr hnone
    rcases Director_cases lib st order req with
      e | ⟨b, hb, he, e, _⟩ | ⟨b, hb, he, e⟩ | ⟨b, hb, he, ha, hm, e⟩ |
      ⟨b, out, f, t, hb, he, hp, hl, e⟩ | ⟨b, hb, he, hp, hen, hl, e⟩
    · rw [e] at hr; cases hr; rfl
    · rw [e] at hr; cases hr; rfl
    · rw [e] at hr; cases hr; rfl
    · rw [e] at hr; cases hr
      exact Header.values_Set_ne _ _ _ _ (by decide)
    · exfalso
      apply hnone
      rw [e] at hr; cases hr
      exact ⟨f, t, by simp⟩
    · rw [e] at hr; exact Option.noConfusion hr
  · intro hperm hen hpath hsrc data hb
    have hp : req.path = anthropicMessagesPath := hpath
    constructor
    · rintro ⟨r, f, t, hr, h⟩
      obtain ⟨b, hb2, _, _, hmem, _, hmatch, _⟩ := Director_mapped lib st order req r hr f t h
      obtain ⟨m, hm, hf, _⟩ := mem_buildModelMap_rule _ f t (hperm.subset hmem)
      rw [hb] at hb2
      simp only [Option.some.injEq] at hb2
      subst hb2
      refine ⟨m, hm, ?_⟩
      intro hfree
      have hpl := (hsrc m hm).1
      rw [hf] at hfree hpl
      rw [(modelPattern_Match_false_iff f data hpl).2 hfree] at hmatch
      exact Bool.noConfusion hmatch
    · rintro ⟨m, hm, hnf⟩
      obtain ⟨v, hv⟩ := buildModelMap_has_source st.modelMappings m hm
      have hlen : 0 < (buildModelMap st.modelMappings).length := List.length_pos_of_mem hv
      have hvo : (m.From, v) ∈ order := hperm.symm.subset hv
      have hmt : (modelPattern m.From).Match data = true := by
        cases hc : (modelPattern m.From).Match data with
        | true => rfl
        | false => exact absurd ((modelPattern_Match_false_iff _ _ (hsrc m hm).1).1 hc) hnf
      have hd := Director_messages lib st order req data hen hp hlen hb
      cases hl : mappingLoop lib data order with
      | panicked =>
        exfalso
        obtain ⟨e1, he1, hc1⟩ := mappingLoop_panicked _ _ _ hl
        obtain ⟨m1, hm1, hf1, _⟩ := mem_buildModelMap_rule _ e1.1 e1.2 (hperm.subset he1)
        have hcm := (hsrc m1 hm1).2
        rw [hf1, hc1] at hcm
        exact Bool.noConfusion hcm
      | unmatched =>
        exfalso
        have := (mappingLoop_unmatched lib data order hl (m.From, v) hvo).2
        rw [hmt] at this
        exact Bool.noConfusion this
      | applied out f t =>
        rw [hl] at hd
        exact ⟨_, f, t, hd, by simp⟩

theorem C7_no_match_no_effect_witness :
    (∃ r : Request × List LogLine,
      Director ⟨fun _ => false, fun _ => false, fun _ => false⟩
        ⟨true, true, [⟨ascii "a", ascii "b"⟩], "ampcode.com"⟩ [(ascii "a", ascii "b")]
        ⟨"localhost:8318", "/api/provider/anthropic/v1/messages", "",
          some ⟨ascii "\x7b\"model\":\"z\"\x7d", false⟩, 13, [("Content-Length", ["13"])]⟩
        = some r ∧
      r.1.body.map Body.data = some (ascii "\x7b\"model\":\"z\"\x7d") ∧
      r.1.contentLength = 13 ∧
      r.1.header = [("Content-Length", ["13"])] ∧
      ∀ f t : List Byte, LogLine.mappedModel f t ∉ r.2) ∧
    (∃ (r : Request × List LogLine) (f t : List Byte),
      Director ⟨fun _ => false, fun _ => false, fun _ => false⟩
        ⟨true, true, [⟨ascii "a", ascii "b"⟩], "ampcode.com"⟩ [(ascii "a", ascii "b")]
        ⟨"localhost:8318", "/api/provider/anthropic/v1/messages", "",
          some ⟨ascii "\x7b\"model\":\"a\"\x7d", false⟩, 13, []⟩ = some r ∧
      LogLine.mappedModel f t ∈ r.2) :=
  ⟨(C7_no_match_no_effect ⟨fun _ => false, fun _ => false, fun _ => false⟩
      ⟨true, true, [⟨ascii "a", ascii "b"⟩], "ampcode.com"⟩
      [(ascii "a", ascii "b")]
      ⟨"localhost:8318", "/api/provider/anthropic/v1/messages", "",
        some ⟨ascii "\x7b\"model\":\"z\"\x7d", false⟩, 13, [("Content-Length", ["13"])]⟩).1
      (by decide) rfl
      (by
        intro m hm
        simp only [List.mem_singleton] at hm
        subst hm
        exact ⟨by unfold plain; decide, rfl⟩)
      (by
        intro b hb m hm
        simp only [Option.some.injEq] at hb
        subst hb
        simp only [List.mem_singleton] at hm
        subst hm
        exact (modelPattern_Match_false_iff _ _ (by unfold plain; decide)).1 (by decide)),
   ((C7_no_match_no_effect ⟨fun _ => false, fun _ => false, fun _ => false⟩
      ⟨true, true, [⟨ascii "a", ascii "b"⟩], "ampcode.com"⟩
      [(ascii "a", ascii "b")]
      ⟨"localhost:8318", "/api/provider/anthropic/v1/messages", "",
        some ⟨ascii "\x7b\"model\":\"a\"\x7d", false⟩, 13, []⟩).2.2.2
      (by decide) rfl rfl
      (by
        intro m hm
        simp only [List.mem_singleton] at hm
        subst hm
        exact ⟨by unfold plain; decide, rfl⟩)
      (ascii "\x7b\"model\":\"a\"\x7d") rfl).2
      ⟨⟨ascii "a", ascii "b"⟩, by simp, fun hfree =>
        Bool.noConfusion
          (((modelPattern_Match_false_iff (ascii "a") (ascii "\x7b\"model\":\"a\"\x7d")
            (by unfold plain; decide)).2 hfree).symm.trans
            (show (modelPattern (ascii "a")).Match (ascii "\x7b\"model\":\"a\"\x7d") = true by
              decide))⟩⟩

/-- C8: the free-tier block takes a request exactly when free search is enabled, the path
is `/api/internal` and the raw query is `webSearch2` or `extractWebPageContent`; it rewrites
exactly when moreover the request has a body that can be read and holds a match, and warns
exactly when moreover the body fails to read; any other request outside the messages path
leaves the hook as it came (but for the host): so with free search disabled on
`/api/internal`, with the query `webSearch2&x=1`, and with the path `/api/internal/`. -/
theorem C8_free_tier_classification (lib : Stdlib) (st : Settings) (order : ModelMap)
    (req : Request) :
    (freeSearchApplies st req = true ↔
      st.enableFreeSearch = true ∧ req.path = "/api/internal" ∧
        (req.rawQuery = "webSearch2" ∨ req.rawQuery = "extractWebPageContent")) ∧
    ((∃ (r : Request × List LogLine) (q : String),
        Director lib st order req = some r ∧ LogLine.modifiedFreeTier q ∈ r.2) ↔
      (st.enableFreeSearch = true ∧ req.path = "/api/internal" ∧
        (req.rawQuery = "webSearch2" ∨ req.rawQuery = "extractWebPageContent")) ∧
        ∃ b : Body, req.body = some b ∧ b.readErr = false ∧
          ¬ isFreeTierRequestRegex.Free b.data) ∧
    ((∃ (r : Request × List LogLine) (q : String),
        Director lib st order req = some r ∧ LogLine.readWarning q ∈ r.2) ↔
      (st.enableFreeSearch = true ∧ req.path = "/api/internal" ∧
        (req.rawQuery = "webSearch2" ∨ req.rawQuery = "extractWebPageContent")) ∧
        ∃ b : Body, req.body = some b ∧ b.readErr = true) ∧
    (¬ (st.enableFreeSearch = true ∧ req.path = "/api/internal" ∧
        (req.rawQuery = "webSearch2" ∨ req.rawQuery = "extractWebPageContent")) →
      req.path ≠ "/api/provider/anthropic/v1/messages" →
      Director lib st order req = some ({ req with host := st.upstreamHost }, [])) ∧
    (req.body = none →
      Director lib st order req = some ({ req with host := st.upstreamHost }, [])) ∧
    (st.enableFreeSearch = false → req.path = "/api/internal" →
      Director lib st order req = some ({ req with host := st.upstreamHost }, [])) ∧
    (req.path = "/api/internal" → req.rawQuery = "webSearch2&x=1" →
      Director lib st order req = some ({ req with host := st.upstreamHost }, [])) ∧
    (req.path = "/api/internal/" →
      Director lib st order req = some ({ req with host := st.upstreamHost }, [])) := by
  have hgen : ¬ (st.enableFreeSearch = true ∧ req.path = "/api/internal" ∧
        (req.rawQuery = "webSearch2" ∨ req.rawQuery = "extractWebPageContent")) →
      req.path ≠ "/api/provider/anthropic/v1/messages" →
      Director lib st order req = some ({ req with host := st.upstreamHost }, []) := by
    intro hn hp
    have hp2 : req.path ≠ anthropicMessagesPath := hp
    have hna : freeSearchApplies st { req with host := st.upstreamHost } = false := by
      cases h : freeSearchApplies st { req with host := st.upstreamHost } with
      | true => exact absurd ((freeSearchApplies_iff st _).1 h) hn
      | false => rfl
    rw [Director_of_path_ne_messages lib st order req hp2,
      freeSearchStep_of_not_applies lib _ _ hna]
  refine ⟨freeSearchApplies_iff st req, ?_, ?_, hgen, ?_, ?_, ?_, ?_⟩
  · constructor
    · rintro ⟨r, q, hr, h⟩
      rcases Director_cases lib st order req with
        e | ⟨b, hb, he, e, _⟩ | ⟨b, hb, he, e⟩ | ⟨b, hb, he, ha, hm, e⟩ |
        ⟨b, out, f, t, hb, he, hp, hl, e⟩ | ⟨b, hb, he, hp, hen, hl, e⟩
      · rw [e] at hr; cases hr; simp at h
      · rw [e] at hr; cases hr; simp at h
      · rw [e] at hr; cases hr; simp at h
      · refine ⟨(freeSearchApplies_iff st req).1 ha, b, hb, he, ?_⟩
        intro hfree
        rw [(freeTier_Match_false_iff _).2 hfree] at hm
        exact Bool.noConfusion hm
      · rw [e] at hr; cases hr; simp at h
      · rw [e] at hr; exact Option.noConfusion hr
    · rintro ⟨hc, b, hb, he, hnf⟩
      have ha : freeSearchApplies st { req with host := st.upstreamHost } = true :=
        (freeSearchApplies_iff st _).2 hc
      have hp : req.path ≠ anthropicMessagesPath := by rw [hc.2.1]; decide
      have hm : isFreeTierRequestRegex.Match b.data = true := by
        cases hx : isFreeTierRequestRegex.Match b.data with
        | true => rfl
        | false => exact absurd ((freeTier_Match_false_iff _).1 hx) hnf
      refine ⟨_, req.rawQuery, Director_of_path_ne_messages lib st order req hp, ?_⟩
      rw [freeSearchStep_rewrite lib st _ b ha hb he hm]
      simp
  · constructor
    · rintro ⟨r, q, hr, h⟩
      rcases Director_cases lib st order req with
        e | ⟨b, hb, he, e, ha⟩ | ⟨b, hb, he, e⟩ | ⟨b, hb, he, ha, hm, e⟩ |
        ⟨b, out, f, t, hb, he, hp, hl, e⟩ | ⟨b, hb, he, hp, hen, hl, e⟩
      · rw [e] at hr; cases hr; simp at h
      · exact ⟨(freeSearchApplies_iff st req).1 ha, b, hb, he⟩
      · rw [e] at hr; cases hr; simp at h
      · rw [e] at hr; cases hr; simp at h
      · rw [e] at hr; cases hr; simp at h
      · rw [e] at hr; exact Option.noConfusion hr
    · rintro ⟨hc, b, hb, he⟩
      have ha : freeSearchApplies st { req with host := st.upstreamHost } = true :=
        (freeSearchApplies_iff st _).2 hc
      have hp : req.path ≠ anthropicMessagesPath := by rw [hc.2.1]; decide
      refine ⟨_, req.rawQuery, Director_of_path_ne_messages lib st order req hp, ?_⟩
      rw [freeSearchStep_readErr lib st _ b ha hb he]
      simp
  · intro hb
    rcases Director_cases lib st order req with
      e | ⟨b, hb2, _⟩ | ⟨b, hb2, _⟩ | ⟨b, hb2, _⟩ | ⟨b, out, f, t, hb2, _⟩ | ⟨b, hb2, _⟩
    · exact e
    · rw [hb] at hb2; exact Option.noConfusion hb2
    · rw [hb] at hb2; exact Option.noConfusion hb2
    · rw [hb] at hb2; exact Option.noConfusion hb2
    · rw [hb] at hb2; exact Option.noConfusion hb2
    · rw [hb] at hb2; exact Option.noConfusion hb2
  · intro hd hp
    apply hgen
    · rintro ⟨h1, _⟩
      rw [hd] at h1
      exact Bool.noConfusion h1
    · rw [hp]; decide
  · intro hp hq
    apply hgen
    · rintro ⟨_, _, h1 | h1⟩
      · rw [hq] at h1; exact absurd h1 (by decide)
      · rw [hq] at h1; exact absurd h1 (by decide)
    · rw [hp]; decide
  · intro hp
    apply hgen
    · rintro ⟨_, h1, _⟩
      rw [hp] at h1; exact absurd h1 (by decide)
    · rw [hp]; decide

theorem C8_free_tier_classification_witness :
    Director ⟨fun _ => false, fun _ => false, fun _ => false⟩ ⟨false, true, [], "ampcode.com"⟩ []
        ⟨"localhost:8318", "/api/internal", "webSearch2",
          some ⟨ascii "\x7b\"isFreeTierRequest\":false\x7d", false⟩, 27, []⟩
      = some (⟨"ampcode.com", "/api/internal", "webSearch2",
          some ⟨ascii "\x7b\"isFreeTierRequest\":false\x7d", false⟩, 27, []⟩, []) ∧
    Director ⟨fun _ => false, fun _ => false, fun _ => false⟩ ⟨true, true, [], "ampcode.com"⟩ []
        ⟨"localhost:8318", "/api/internal", "webSearch2&x=1",
          some ⟨ascii "\x7b\"isFreeTierRequest\":false\x7d", false⟩, 27, []⟩
      = some (⟨"ampcode.com", "/api/internal", "webSearch2&x=1",
          some ⟨ascii "\x7b\"isFreeTierRequest\":false\x7d", false⟩, 27, []⟩, []) ∧
    Director ⟨fun _ => false, fun _ => false, fun _ => false⟩ ⟨true, true, [], "ampcode.com"⟩ []
        ⟨"localhost:8318", "/api/internal/", "webSearch2",
          some ⟨ascii "\x7b\"isFreeTierRequest\":false\x7d", false⟩, 27, []⟩
      = some (⟨"ampcode.com", "/api/internal/", "webSearch2",
          some ⟨ascii "\x7b\"isFreeTierRequest\":false\x7d", false⟩, 27, []⟩, []) :=
  ⟨(C8_free_tier_classification ⟨fun _ => false, fun _ => false, fun _ => false⟩
      ⟨false, true, [], "ampcode.com"⟩ []
      ⟨"localhost:8318", "/api/internal", "webSearch2",
        some ⟨ascii "\x7b\"isFreeTierRequest\":false\x7d", false⟩, 27, []⟩).2.2.2.2.2.1 rfl rfl,
   (C8_free_tier_classification ⟨fun _ => false, fun _ => false, fun _ => false⟩
       ⟨true, true, [], "ampcode.com"⟩ []
      ⟨"localhost:8318", "/api/internal", "webSearch2&x=1",
        some ⟨ascii "\x7b\"isFreeTierRequest\":false\x7d", false⟩, 27, []⟩).2.2.2.2.2.2.1 rfl rfl,
   (C8_free_tier_classification ⟨fun _ => false, fun _ => false, fun _ => false⟩
       ⟨true, true, [], "ampcode.com"⟩ []
      ⟨"localhost:8318", "/api/internal/", "webSearch2",
        some ⟨ascii "\x7b\"isFreeTierRequest\":false\x7d", false⟩, 27, []⟩).2.2.2.2.2.2.2 rfl⟩

/-- C9: the free-tier rewrite is idempotent on every byte sequence, and what it returns
holds no match of `"isFreeTierRequest"\s*:\s*false`. -/
theorem C9_free_tier_idempotent (lib : Stdlib) (b : List Byte) :
    freeTierRewrite lib (freeTierRewrite lib b) = freeTierRewrite lib b ∧
      isFreeTierRequestRegex.Match (freeTierRewrite lib b) = false ∧
      isFreeTierRequestRegex.Free (freeTierRewrite lib b) := by
  have hm := freeTierRewrite_Match lib b
  have hfree := (freeTier_Match_false_iff _).1 hm
  exact ⟨freeTierRewrite_of_free lib _ hfree, hm, hfree⟩

/-- C10 (counterexample): with the rules a -> x, b -> y and the body
`{"model":"a","model":"b"}` the two orders in which the map can be visited forward different
bodies, whatever the Unicode tables. -/
theorem C10_counterexample :
    ([(ascii "a", ascii "x"), (ascii "b", ascii "y")] : ModelMap).Perm
      (buildModelMap [⟨ascii "a", ascii "x"⟩, ⟨ascii "b", ascii "y"⟩]) ∧
    ([(ascii "b", ascii "y"), (ascii "a", ascii "x")] : ModelMap).Perm
      (buildModelMap [⟨ascii "a", ascii "x"⟩, ⟨ascii "b", ascii "y"⟩]) ∧
    (∀ lib : Stdlib,
      (Director lib
          ⟨true, true, [⟨ascii "a", ascii "x"⟩, ⟨ascii "b", ascii "y"⟩], "ampcode.com"⟩
          [(ascii "a", ascii "x"), (ascii "b", ascii "y")]
          ⟨"localhost:8318", "/api/provider/anthropic/v1/messages", "",
            some ⟨ascii "\x7b\"model\":\"a\",\"model\":\"b\"\x7d", false⟩, 25,
            []⟩).map (fun r => r.1.body)
        = some (some ⟨ascii "\x7b\"model\":\"x\",\"model\":\"b\"\x7d", false⟩)) ∧
    (∀ lib : Stdlib,
      (Director lib
          ⟨true, true, [⟨ascii "a", ascii "x"⟩, ⟨ascii "b", ascii "y"⟩], "ampcode.com"⟩
          [(ascii "b", ascii "y"), (ascii "a", ascii "x")]
          ⟨"localhost:8318", "/api/provider/anthropic/v1/messages", "",
            some ⟨ascii "\x7b\"model\":\"a\",\"model\":\"b\"\x7d", false⟩, 25,
            []⟩).map (fun r => r.1.body)
        = some (some ⟨ascii "\x7b\"model\":\"a\",\"model\":\"y\"\x7d", false⟩)) ∧
    ascii "\x7b\"model\":\"x\",\"model\":\"b\"\x7d"
      ≠ ascii "\x7b\"model\":\"a\",\"model\":\"y\"\x7d" := by
  refine ⟨by decide, by decide, ?_, ?_, by decide⟩
  · intro lib
    have hl : mappingLoop lib (ascii "\x7b\"model\":\"a\",\"model\":\"b\"\x7d")
        [(ascii "a", ascii "x"), (ascii "b", ascii "y")]
        = LoopResult.applied (ascii "\x7b\"model\":\"x\",\"model\":\"b\"\x7d") (ascii "a")
          (ascii "x") := rfl
    rw [Director_messages lib _ _ _ (ascii "\x7b\"model\":\"a\",\"model\":\"b\"\x7d") rfl
      rfl (by decide) rfl, hl]
    decide
  · intro lib
    have hl : mappingLoop lib (ascii "\x7b\"model\":\"a\",\"model\":\"b\"\x7d")
        [(ascii "b", ascii "y"), (ascii "a", ascii "x")]
        = LoopResult.applied (ascii "\x7b\"model\":\"a\",\"model\":\"y\"\x7d") (ascii "b")
          (ascii "y") := rfl
    rw [Director_messages lib _ _ _ (ascii "\x7b\"model\":\"a\",\"model\":\"b\"\x7d") rfl
      rfl (by decide) rfl, hl]
    decide

/-- C10 (amended): for a fixed configuration and request, when every configured source
compiles (it is UTF-8 and the regexp parser accepts it) and at most one configured source
has a pattern that matches the body, the hook returns, and two visits of the map in any two
orders leave the same request and the same log lines. -/
theorem C10_order_irrelevant_when_unique (lib : Stdlib) (st : Settings)
    (order1 order2 : ModelMap) (req : Request)
    (h1 : order1.Perm (buildModelMap st.modelMappings))
    (h2 : order2.Perm (buildModelMap st.modelMappings))
    (hc : ∀ m ∈ st.modelMappings, compiles lib m.From = true)
    (hu : ∀ b : Body, req.body = some b →
      ∀ m1 ∈ st.modelMappings, ∀ m2 ∈ st.modelMappings,
        (modelPattern m1.From).Match b.data = true →
        (modelPattern m2.From).Match b.data = true → m1.From = m2.From) :
    Director lib st order1 req = Director lib st order2 req ∧
      (Director lib st order1 req).isSome = true :=
  ⟨Director_order_irrelevant lib st order1 order2 req h1 h2 hc hu,
    Director_isSome lib st order1 req h1 hc⟩

theorem C10_order_irrelevant_when_unique_witness :
    Director ⟨fun _ => false, fun _ => false, fun _ => false⟩
        ⟨true, true, [⟨ascii "a", ascii "x"⟩, ⟨ascii "b", ascii "y"⟩], "ampcode.com"⟩
        [(ascii "a", ascii "x"), (ascii "b", ascii "y")]
        ⟨"localhost:8318", "/api/provider/anthropic/v1/messages", "",
          some ⟨ascii "\x7b\"model\":\"b\"\x7d", false⟩, 13, []⟩
      = Director ⟨fun _ => false, fun _ => false, fun _ => false⟩
        ⟨true, true, [⟨ascii "a", ascii "x"⟩, ⟨ascii "b", ascii "y"⟩], "ampcode.com"⟩
        [(ascii "b", ascii "y"), (ascii "a", ascii "x")]
        ⟨"localhost:8318", "/api/provider/anthropic/v1/messages", "",
          some ⟨ascii "\x7b\"model\":\"b\"\x7d", false⟩, 13, []⟩ :=
  (C10_order_irrelevant_when_unique ⟨fun _ => false, fun _ => false, fun _ => false⟩
    ⟨true, true, [⟨ascii "a", ascii "x"⟩, ⟨ascii "b", ascii "y"⟩], "ampcode.com"⟩
    [(ascii "a", ascii "x"), (ascii "b", ascii "y")]
    [(ascii "b", ascii "y"), (ascii "a", ascii "x")]
    ⟨"localhost:8318", "/api/provider/anthropic/v1/messages", "",
      some ⟨ascii "\x7b\"model\":\"b\"\x7d", false⟩, 13, []⟩
    (by decide) (by decide)
    (by
      intro m hm
      simp only [List.mem_cons, List.mem_singleton, List.not_mem_nil, or_false] at hm
      rcases hm with rfl | rfl <;> rfl)
    (by
      intro b hb
      simp only [Option.some.injEq] at hb
      subst hb
      decide)).1

end AmpFreeProxy
